import Mathlib

/-!
Verification development for the polykit repository.

Part 1 embeds the TypeScript source of packages/react/src/wasm-bridge.ts
(the WASM bridge: loadWasm, getWasm, parseWasmResponse) and the WidgetShell
component. Stateful module-level variables become explicit state passing;
host functions (dynamic import, JSON.parse) become explicit parameters or
already-parsed values; thrown exceptions become Except.

Part 2 models the Delta Curate engine (delta encoder, epoch manager,
reconstructor, bitmask aggregator/committer, proof generator/verifier),
which the repository describes but does not implement in source form; those
definitions are modelled from the specification and marked as such.
-/

/-! ## Embedding of wasm-bridge.ts -/

/-- A value produced by JSON.parse. JSON.parse never yields undefined or
NaN, so those are not represented. Objects are represented with their
final (last-occurrence-deduplicated) key/value pairs. -/
inductive JsonValue where
  | jnull
  | jbool (b : Bool)
  | jnum (q : Rat)
  | jstr (s : String)
  | jarr (elems : List JsonValue)
  | jobj (fields : List (String × JsonValue))

/-- Discriminator for the JavaScript null value. -/
def JsonValue.isNull : JsonValue → Bool
  | .jnull => true
  | _ => false

/-- JavaScript truthiness for values reachable from JSON.parse. -/
def JsonValue.truthy : JsonValue → Bool
  | .jnull => false
  | .jbool b => b
  | .jnum q => q != 0
  | .jstr s => s != ""
  | .jarr _ => true
  | .jobj _ => true

/-- The error outcomes of parseWasmResponse: JSON.parse threw a
SyntaxError, property access on null threw a TypeError, or the error
field was truthy and a wrapped Error was thrown. -/
inductive JsError where
  | parseThrew
  | typeError
  | wasmError
deriving DecidableEq

/-- JavaScript property access v.error: raises TypeError on null, yields
the own property on objects, and undefined (none) on every other
JSON-parseable value (primitives and arrays have no own property named
error and none inherited under that name). -/
def propAccess : JsonValue → String → Except JsError (Option JsonValue)
  | .jnull, _ => .error .typeError
  | .jobj fields, k => .ok ((fields.find? (fun p => p.1 == k)).map (fun p => p.2))
  | .jbool _, _ => .ok none
  | .jnum _, _ => .ok none
  | .jstr _, _ => .ok none
  | .jarr _, _ => .ok none

/-- parseWasmResponse from wasm-bridge.ts. The argument is the outcome of
JSON.parse(json): none when JSON.parse threw, some v when it produced v.
The body is: const parsed = JSON.parse(json); if (parsed.error) throw ...;
return parsed. -/
def parseWasmResponse (parseResult : Option JsonValue) : Except JsError JsonValue :=
  match parseResult with
  | none => .error .parseThrew
  | some v =>
    match propAccess v "error" with
    | .error e => .error e
    | .ok none => .ok v
    | .ok (some e) => if e.truthy then .error .wasmError else .ok v

/-- The truthy-error-property test as the claim states it: the parsed
value has an error property and that property is truthy. (Plain lookup,
no exception: this is the reading under which the claim is evaluated.) -/
def errorTruthyPlain (v : JsonValue) : Bool :=
  match v with
  | .jobj fields =>
    match (fields.find? (fun p => p.1 == "error")).map (fun p => p.2) with
    | some e => e.truthy
    | none => false
  | _ => false

/-- The WASM module instance. Its wasm-bindgen exports are irrelevant to
the bridge caching behaviour, so an instance is identified abstractly. -/
structure PolykitWasm where
  modId : Nat
deriving DecidableEq

/-- Module-level mutable state of wasm-bridge.ts:
let wasmInstance: PolykitWasm | null = null. -/
structure BridgeState where
  wasmInstance : Option PolykitWasm := none
deriving DecidableEq

/-- loadWasm from wasm-bridge.ts. importModule models the host dynamic
module import plus module.default() initialization at a wasmUrl: none
means one of the awaits threw (so wasmInstance is not assigned), some m means
the module loaded. Returns the produced instance and the new module
state, or none when the load threw. -/
def loadWasm (importModule : String → Option PolykitWasm) (st : BridgeState)
    (wasmUrl : String) : Option (PolykitWasm × BridgeState) :=
  match st.wasmInstance with
  | some w => some (w, st)
  | none =>
    match importModule wasmUrl with
    | none => none
    | some m => some (m, { wasmInstance := some m })

/-- getWasm from wasm-bridge.ts: throws if not yet loaded. -/
def getWasm (st : BridgeState) : Except String PolykitWasm :=
  match st.wasmInstance with
  | none => .error "PolyKit WASM not loaded. Wrap your app in <PolyProvider>."
  | some w => .ok w

/-! ## Embedding of WidgetShell -/

/-- Props of the WidgetShell component, with the source defaults for
requiredRoles, userRoles and size. -/
structure WidgetShellProps where
  widgetId : String
  title : String
  requiredRoles : List String := []
  userRoles : List String := []
  sizeCols : Nat := 6
  sizeRows : Nat := 3

/-- The rendered output of WidgetShell: either the unauthorized panel
(children absent) or the shell wrapping the children. -/
inductive RenderedWidget (α : Type) where
  | unauthorized (title : String) (message : String)
  | shell (widgetId : String) (title : String) (children : α)
deriving DecidableEq

/-- The RBAC gate of WidgetShell:
requiredRoles.length === 0 || requiredRoles.some((r) => userRoles.includes(r)). -/
def hasAccess (p : WidgetShellProps) : Bool :=
  p.requiredRoles.length == 0 || p.requiredRoles.any (fun r => p.userRoles.contains r)

/-- WidgetShell render function: unauthorized branch shows the
Insufficient permissions element without the children; otherwise the
children are rendered inside the shell. -/
def WidgetShell {α : Type} (p : WidgetShellProps) (children : α) : RenderedWidget α :=
  if hasAccess p then
    .shell p.widgetId p.title children
  else
    .unauthorized p.title "Insufficient permissions"

/-! ## Theorems for the bridge claims -/

/-- C8: children are rendered inside the shell iff requiredRoles is empty
or some required role occurs in userRoles; otherwise the Insufficient
permissions element is rendered without the children; omitted requiredRoles
defaults to the empty list, granting access regardless of userRoles. -/
theorem widgetShell_rbac_gate :
    (∀ (α : Type) (p : WidgetShellProps) (children : α),
      (WidgetShell p children = .shell p.widgetId p.title children ↔
        (p.requiredRoles = [] ∨ ∃ r ∈ p.requiredRoles, r ∈ p.userRoles)) ∧
      (¬ (p.requiredRoles = [] ∨ ∃ r ∈ p.requiredRoles, r ∈ p.userRoles) →
        WidgetShell p children = .unauthorized p.title "Insufficient permissions")) ∧
    (∀ (α : Type) (widgetId title : String) (userRoles : List String) (children : α),
      WidgetShell { widgetId := widgetId, title := title, userRoles := userRoles } children =
        .shell widgetId title children) := by
  have hacc : ∀ p : WidgetShellProps,
      hasAccess p = true ↔ (p.requiredRoles = [] ∨ ∃ r ∈ p.requiredRoles, r ∈ p.userRoles) := by
    intro p
    unfold hasAccess
    simp [List.any_eq_true, List.length_eq_zero]
  constructor
  · intro α p children
    constructor
    · constructor
      · intro h
        rw [← hacc]
        by_contra hc
        unfold WidgetShell at h
        rw [Bool.not_eq_true] at hc
        simp [hc] at h
      · intro h
        rw [← hacc] at h
        unfold WidgetShell
        simp [h]
    · intro h
      rw [← hacc, Bool.not_eq_true] at h
      unfold WidgetShell
      simp [h]
  · intro α widgetId title userRoles children
    unfold WidgetShell hasAccess
    simp

/-- C9 counterexample: the JSON text null parses successfully to the null
value, which has no truthy error property, yet parseWasmResponse throws
(a TypeError from accessing .error on null) instead of returning null as
a success value. -/
theorem parseWasmResponse_null_counterexample :
    parseWasmResponse (some JsonValue.jnull) = Except.error JsError.typeError ∧
    errorTruthyPlain JsonValue.jnull = false ∧
    parseWasmResponse (some JsonValue.jnull) ≠ Except.ok JsonValue.jnull := by
  refine ⟨rfl, rfl, ?_⟩
  intro h
  simp [parseWasmResponse, propAccess] at h

/-- The null discriminator is false exactly away from jnull. -/
theorem JsonValue.isNull_eq_false_iff (v : JsonValue) :
    v.isNull = false ↔ v ≠ JsonValue.jnull := by
  cases v <;> simp [JsonValue.isNull]

/-- Case analysis of parseWasmResponse on a successfully parsed value. -/
theorem parseWasmResponse_some_eq (w : JsonValue) :
    parseWasmResponse (some w) =
      (if w.isNull then Except.error JsError.typeError
       else if errorTruthyPlain w then Except.error JsError.wasmError
       else Except.ok w) := by
  match w with
  | .jnull => rfl
  | .jbool b => rfl
  | .jnum q => rfl
  | .jstr s => rfl
  | .jarr es => rfl
  | .jobj fields =>
    cases h : (fields.find? (fun p => p.1 == "error")).map (fun p => p.2) with
    | none =>
      simp [parseWasmResponse, propAccess, errorTruthyPlain, h, JsonValue.isNull]
    | some e =>
      cases ht : e.truthy with
      | true =>
        simp [parseWasmResponse, propAccess, errorTruthyPlain, h, ht, JsonValue.isNull]
      | false =>
        simp [parseWasmResponse, propAccess, errorTruthyPlain, h, ht, JsonValue.isNull]

/-- C9 amended: parseWasmResponse throws exactly when JSON.parse throws,
or the parsed value is null (property access on null raises TypeError),
or the parsed value has a truthy error property; otherwise it returns the
parsed value. A non-null response whose error field is falsy (for
instance the empty string, or the number 0) is returned as a success value. -/
theorem parseWasmResponse_characterization :
    (∀ (p : Option JsonValue) (v : JsonValue),
      (parseWasmResponse p = Except.ok v ↔
        (p = some v ∧ v.isNull = false ∧ errorTruthyPlain v = false)) ∧
      ((∃ m, parseWasmResponse p = Except.error m) ↔
        (p = none ∨ (∃ w, p = some w ∧ w.isNull = true) ∨
          ∃ w, p = some w ∧ errorTruthyPlain w = true))) ∧
    parseWasmResponse (some (JsonValue.jobj [("error", JsonValue.jstr "")])) =
      Except.ok (JsonValue.jobj [("error", JsonValue.jstr "")]) ∧
    parseWasmResponse (some (JsonValue.jobj [("error", JsonValue.jnum 0)])) =
      Except.ok (JsonValue.jobj [("error", JsonValue.jnum 0)]) := by
  refine ⟨?_, rfl, ?_⟩
  · intro p v
    constructor
    · constructor
      · intro h
        match p with
        | none => exact absurd h (by simp [parseWasmResponse])
        | some w =>
          rw [parseWasmResponse_some_eq] at h
          cases hn : w.isNull with
          | true => rw [hn] at h; exact absurd h (by simp)
          | false =>
            rw [hn] at h
            cases he : errorTruthyPlain w with
            | true => rw [he] at h; exact absurd h (by simp)
            | false =>
              rw [he] at h
              simp at h
              subst h
              exact ⟨rfl, hn, he⟩
      · rintro ⟨hp, hn, he⟩
        subst hp
        rw [parseWasmResponse_some_eq, hn, he]
        simp
    · constructor
      · rintro ⟨m, hm⟩
        match p with
        | none => exact Or.inl rfl
        | some w =>
          rw [parseWasmResponse_some_eq] at hm
          cases hn : w.isNull with
          | true => exact Or.inr (Or.inl ⟨w, rfl, hn⟩)
          | false =>
            cases he : errorTruthyPlain w with
            | true => exact Or.inr (Or.inr ⟨w, rfl, he⟩)
            | false =>
              rw [hn, he] at hm
              exact absurd hm (by simp)
      · rintro (hp | ⟨w, hp, hw⟩ | ⟨w, hp, hw⟩)
        · exact ⟨.parseThrew, by rw [hp]; rfl⟩
        · refine ⟨.typeError, ?_⟩
          rw [hp, parseWasmResponse_some_eq, hw]
          simp
        · refine ⟨if w.isNull then .typeError else .wasmError, ?_⟩
          rw [hp, parseWasmResponse_some_eq, hw]
          cases hn : w.isNull <;> simp
  · rw [parseWasmResponse_some_eq]
    simp [JsonValue.isNull, errorTruthyPlain, List.find?, JsonValue.truthy]

/-- Helper: a successful loadWasm leaves the cached instance in the
module state. -/
theorem loadWasm_ok_sets_instance
    (importModule : String → Option PolykitWasm) (st : BridgeState)
    (wasmUrl : String) (w : PolykitWasm) (st2 : BridgeState)
    (h : loadWasm importModule st wasmUrl = some (w, st2)) :
    st2.wasmInstance = some w := by
  unfold loadWasm at h
  match hs : st.wasmInstance with
  | some w0 =>
    rw [hs] at h
    injection h with h1
    injection h1 with hw hst
    rw [← hst, hs, hw]
  | none =>
    rw [hs] at h
    match hm : importModule wasmUrl with
    | none => rw [hm] at h; exact absurd h (by simp)
    | some m =>
      rw [hm] at h
      injection h with h1
      injection h1 with hw hst
      rw [← hst, ← hw]

/-- C10: loadWasm caches the first successfully loaded module: after one
successful call, every subsequent call (any loader, any URL: the URL
argument is ignored thereafter) returns the same cached instance with
unchanged state, and getWasm returns it; getWasm throws exactly when the
module-level wasmInstance is still null (no load has completed, as in the
initial state); a failed load performs no assignment. -/
theorem wasm_bridge_caching :
    (∀ (importModule : String → Option PolykitWasm) (st : BridgeState)
        (wasmUrl : String) (w : PolykitWasm) (st2 : BridgeState),
      loadWasm importModule st wasmUrl = some (w, st2) →
      st2.wasmInstance = some w ∧
      (∀ (importModule2 : String → Option PolykitWasm) (wasmUrl2 : String),
        loadWasm importModule2 st2 wasmUrl2 = some (w, st2)) ∧
      getWasm st2 = Except.ok w) ∧
    (∀ st : BridgeState,
      (∃ m, getWasm st = Except.error m) ↔ st.wasmInstance = none) ∧
    ({ } : BridgeState).wasmInstance = none ∧
    (∀ (importModule : String → Option PolykitWasm) (wasmUrl : String),
      importModule wasmUrl = none →
      loadWasm importModule { wasmInstance := none } wasmUrl = none) := by
  refine ⟨?_, ?_, rfl, ?_⟩
  · intro importModule st wasmUrl w st2 h
    have hinst := loadWasm_ok_sets_instance importModule st wasmUrl w st2 h
    refine ⟨hinst, ?_, ?_⟩
    · intro importModule2 wasmUrl2
      unfold loadWasm
      rw [hinst]
    · unfold getWasm
      rw [hinst]
  · intro st
    constructor
    · rintro ⟨m, hm⟩
      match hs : st.wasmInstance with
      | none => rfl
      | some w => unfold getWasm at hm; rw [hs] at hm; exact absurd hm (by simp)
    · intro hs
      exact ⟨_, by unfold getWasm; rw [hs]⟩
  · intro importModule wasmUrl hm
    unfold loadWasm
    simp [hm]

/-- Witness for C10 at concrete inputs: loading module 7 into a fresh
state caches instance 7; a second call with a different loader and URL
returns the same instance and state, and getWasm yields it. -/
theorem wasm_bridge_caching_witness :
    ({ wasmInstance := some ⟨7⟩ } : BridgeState).wasmInstance = some (⟨7⟩ : PolykitWasm) ∧
    loadWasm (fun _ => some ⟨9⟩) { wasmInstance := some ⟨7⟩ } "other.wasm" =
      some (⟨7⟩, { wasmInstance := some ⟨7⟩ }) ∧
    getWasm { wasmInstance := some ⟨7⟩ } = Except.ok ⟨7⟩ := by
  have h := wasm_bridge_caching.1 (fun _ => some ⟨7⟩)
    { wasmInstance := none } "polykit.wasm" ⟨7⟩ { wasmInstance := some ⟨7⟩ } rfl
  exact ⟨h.1, h.2.1 (fun _ => some ⟨9⟩) "other.wasm", h.2.2⟩

/-- Concrete props: widget requiring the admin role shown to a viewer. -/
def viewerProps : WidgetShellProps :=
  { widgetId := "w1", title := "T", requiredRoles := ["admin"], userRoles := ["viewer"] }

/-- Witness for C8 at concrete inputs: a required role the user lacks
renders the unauthorized panel, children dropped. -/
theorem widgetShell_rbac_gate_witness :
    WidgetShell viewerProps (0 : Nat) =
      RenderedWidget.unauthorized "T" "Insufficient permissions" :=
  (widgetShell_rbac_gate.1 Nat viewerProps 0).2 (by simp [viewerProps])

/-- Witness for C9 at a concrete input: a response object with no error
key is returned unchanged. -/
theorem parseWasmResponse_characterization_witness :
    parseWasmResponse (some (JsonValue.jobj [("ok", JsonValue.jbool true)])) =
      Except.ok (JsonValue.jobj [("ok", JsonValue.jbool true)]) :=
  ((parseWasmResponse_characterization.1
    (some (JsonValue.jobj [("ok", JsonValue.jbool true)]))
    (JsonValue.jobj [("ok", JsonValue.jbool true)])).1).mpr ⟨rfl, rfl, rfl⟩

/-! ## Delta Curate: data model

The Delta Curate engine is described by this repository (its architecture
document and platform-feedback notes) but its implementation is not part
of the source tree; every definition in the remainder of this file is
modelled from the specification text. -/

/-- Modelled from the spec: field kinds int, uint, bytes, bool of a
FieldSpec (the implementation is missing from the source tree). -/
inductive FieldKind where
  | kint
  | kuint
  | kbytes
  | kbool
deriving DecidableEq

/-- Modelled from the spec: FieldSpec with name, stable unique ordinal,
kind and bit width (implementation missing from the source tree). -/
structure FieldSpec where
  name : String
  ordinal : Nat
  kind : FieldKind
  bit_width : Nat
deriving DecidableEq

/-- Modelled from the spec: a typed field value (int and uint fields hold
integers, bytes fields hold byte strings, bool fields hold booleans). -/
inductive Value where
  | vint (i : Int)
  | vbytes (bs : List Nat)
  | vbool (b : Bool)
deriving DecidableEq

/-- Modelled from the spec: a Record maps field ordinals to typed values;
represented as the ordered association list of (ordinal, value) pairs. -/
abbrev Record := List (Nat × Value)

/-- Modelled from the spec: the zero value a first record is diffed
against when no previous record exists. -/
def zeroValue : FieldKind → Value
  | .kint => .vint 0
  | .kuint => .vint 0
  | .kbytes => .vbytes []
  | .kbool => .vbool false

/-- Lookup of a field ordinal in a record. -/
def recFind (r : Record) (o : Nat) : Option Value :=
  (r.find? (fun p => p.1 == o)).map (fun p => p.2)

/-- Modelled from the spec: one packed delta: a variable-width signed
delta for an int or uint field, or a full replacement value for a bytes
or bool field. -/
inductive PackedVal where
  | intDelta (d : Int)
  | replaceBytes (bs : List Nat)
  | replaceBool (b : Bool)
deriving DecidableEq

/-- Modelled from the spec: DeltaEntry with record_id, sequence, presence
bitmask over field ordinals, the packed deltas for the set bits in
ordinal order, and the epoch id. -/
structure DeltaEntry where
  record_id : Nat
  sequence : Nat
  presence_bitmask : Nat
  packed_deltas : List PackedVal
  epoch_id : Nat
deriving DecidableEq

/-- Modelled from the spec: encoder error taxonomy. -/
inductive EncodeError where
  | schemaMismatch
  | widthOverflow
deriving DecidableEq

/-- Modelled from the spec: zig-zag mapping of a signed delta to an
unsigned magnitude, (delta << 1) ^ (delta >> (width-1)): nonnegative d
maps to 2d, negative d maps to 2|d|-1. -/
def zigzag (d : Int) : Nat :=
  if 0 ≤ d then (2 * d).toNat else (-(2 * d) - 1).toNat

/-- The previous value of a field: zero when no previous record exists
(first record of a record_id), otherwise the looked-up previous value,
zero for an ordinal the previous record lacks (additive evolution). -/
def prevVal (previous : Option Record) (f : FieldSpec) : Value :=
  match previous with
  | none => zeroValue f.kind
  | some p => (recFind p f.ordinal).getD (zeroValue f.kind)

/-- The current value of a field, zero if absent. -/
def currVal (current : Record) (f : FieldSpec) : Value :=
  (recFind current f.ordinal).getD (zeroValue f.kind)

/-- Modelled from the spec: per-field encoding step. A zero delta (or
unchanged bytes/bool value) contributes nothing; a non-zero integer delta
must fit the field width under zig-zag encoding, else WidthOverflow (the
delta is never truncated); changed bytes/bool fields are stored as full
replacements; a value whose type contradicts the schema is a schema
mismatch. -/
def encodeField (f : FieldSpec) (pv cv : Value) : Except EncodeError (Option PackedVal) :=
  match f.kind, pv, cv with
  | .kint, .vint a, .vint b =>
    if b - a = 0 then .ok none
    else if zigzag (b - a) < 2 ^ f.bit_width then .ok (some (.intDelta (b - a)))
    else .error .widthOverflow
  | .kuint, .vint a, .vint b =>
    if b - a = 0 then .ok none
    else if zigzag (b - a) < 2 ^ f.bit_width then .ok (some (.intDelta (b - a)))
    else .error .widthOverflow
  | .kbytes, .vbytes a, .vbytes b =>
    if a = b then .ok none else .ok (some (.replaceBytes b))
  | .kbool, .vbool a, .vbool b =>
    if a = b then .ok none else .ok (some (.replaceBool b))
  | _, _, _ => .error .schemaMismatch

/-- Modelled from the spec: walk the schema in order, OR the changed
ordinals into the presence bitmask and collect the packed deltas in the
same order. -/
def encodeFields (previous : Option Record) (current : Record) :
    List FieldSpec → Except EncodeError (Nat × List PackedVal)
  | [] => .ok (0, [])
  | f :: fs =>
    match encodeField f (prevVal previous f) (currVal current f) with
    | .error e => .error e
    | .ok none => encodeFields previous current fs
    | .ok (some d) =>
      match encodeFields previous current fs with
      | .error e => .error e
      | .ok (mask, ds) => .ok (2 ^ f.ordinal ||| mask, d :: ds)

/-- Ordinals present in a record. -/
def ordinalsOf (r : Record) : List Nat := r.map (fun p => p.1)

/-- The additive-evolution check: every ordinal of the previous record
must also be an ordinal of the current record. -/
def supersetCheck (previous current : Record) : Bool :=
  (ordinalsOf previous).all (fun o => (ordinalsOf current).contains o)

/-- Modelled from the spec: encode(schema, previous, current) -> DeltaEntry,
failing with SchemaMismatch when the current ordinals are not a superset
of the previous ones, and with WidthOverflow when a delta exceeds the
maximum magnitude representable at full field width. -/
def encode (schema : List FieldSpec) (previous : Option Record) (current : Record)
    (rid seq eid : Nat) : Except EncodeError DeltaEntry :=
  match previous with
  | some p =>
    if supersetCheck p current then
      match encodeFields previous current schema with
      | .error e => .error e
      | .ok (mask, ds) => .ok ⟨rid, seq, mask, ds, eid⟩
    else .error .schemaMismatch
  | none =>
    match encodeFields none current schema with
    | .error e => .error e
    | .ok (mask, ds) => .ok ⟨rid, seq, mask, ds, eid⟩

/-- Does a schema field match the type of a stored value. -/
def kindMatches : FieldKind → Value → Bool
  | .kint, .vint _ => true
  | .kuint, .vint _ => true
  | .kbytes, .vbytes _ => true
  | .kbool, .vbool _ => true
  | _, _ => false

/-- A record is well formed for a schema when it lists exactly the schema
ordinals in schema order with values of the declared kinds. -/
def wfRecord : List FieldSpec → Record → Bool
  | [], [] => true
  | f :: fs, (o, v) :: r => o == f.ordinal && kindMatches f.kind v && wfRecord fs r
  | _, _ => false

/-- Number of set bits of a bitmask. -/
def popcount (n : Nat) : Nat :=
  if h : n = 0 then 0 else n % 2 + popcount (n / 2)
decreasing_by exact Nat.div_lt_self (Nat.pos_of_ne_zero h) (by omega)

/-- Did a field change between the previous and current value (non-zero
delta for int and uint fields, value inequality for bytes and bool). -/
def fieldChanged (f : FieldSpec) (pv cv : Value) : Bool :=
  match f.kind, pv, cv with
  | .kint, .vint a, .vint b => b - a != 0
  | .kuint, .vint a, .vint b => b - a != 0
  | .kbytes, .vbytes a, .vbytes b => a != b
  | .kbool, .vbool a, .vbool b => a != b
  | _, _, _ => false

/-- Apply one packed delta to a field value: integer deltas are added,
replacements overwrite. -/
def applyOne : Value → PackedVal → Value
  | .vint a, .intDelta d => .vint (a + d)
  | v, .intDelta _ => v
  | _, .replaceBytes bs => .vbytes bs
  | _, .replaceBool b => .vbool b

/-- Modelled from the spec: the decoder applies a delta, updating only
the fields whose bit is set in the presence bitmask, consuming the packed
deltas in order. -/
def applyFields : Record → Nat → List PackedVal → Record
  | [], _, _ => []
  | (o, v) :: r, mask, ds =>
    if mask.testBit o then
      match ds with
      | [] => (o, v) :: applyFields r mask []
      | d :: ds2 => (o, applyOne v d) :: applyFields r mask ds2
    else (o, v) :: applyFields r mask ds

/-- Apply a whole DeltaEntry to a record. -/
def applyEntry (r : Record) (e : DeltaEntry) : Record :=
  applyFields r e.presence_bitmask e.packed_deltas

/-! ## Bitmask counting lemmas -/

/-- popcount of zero. -/
theorem popcount_zero : popcount 0 = 0 := by
  rw [popcount.eq_def]
  simp

/-- Unfolding equation of popcount, valid for every n. -/
theorem popcount_unfold (n : Nat) : popcount n = n % 2 + popcount (n / 2) := by
  by_cases h : n = 0
  · subst h
    simp [popcount_zero]
  · rw [popcount.eq_def]
    simp [h]

/-- popcount distributes over OR of bit-disjoint numbers. -/
theorem popcount_lor_disjoint (a : Nat) :
    ∀ b, (∀ i, a.testBit i = false ∨ b.testBit i = false) →
      popcount (a ||| b) = popcount a + popcount b := by
  induction a using Nat.strong_induction_on with
  | _ a ih =>
    intro b hdis
    by_cases ha : a = 0
    · subst ha
      rw [Nat.zero_or, popcount_zero]
      omega
    · have hdiv2 : a / 2 < a := Nat.div_lt_self (Nat.pos_of_ne_zero ha) (by omega)
      have hdis2 : ∀ i, (a / 2).testBit i = false ∨ (b / 2).testBit i = false := by
        intro i
        rw [Nat.testBit_div_two, Nat.testBit_div_two]
        exact hdis (i + 1)
      have ih2 := ih (a / 2) hdiv2 (b / 2) hdis2
      have hlor_div : (a ||| b) / 2 = a / 2 ||| b / 2 := by
        apply Nat.eq_of_testBit_eq
        intro i
        rw [Nat.testBit_div_two, Nat.testBit_lor, Nat.testBit_lor,
          Nat.testBit_div_two, Nat.testBit_div_two]
      have key0 : (a ||| b) % 2 = a % 2 + b % 2 := by
        have ht := Nat.testBit_lor a b 0
        have h0 := hdis 0
        simp only [Nat.testBit_zero, ← Bool.decide_or, decide_eq_decide] at ht
        simp only [Nat.testBit_zero, decide_eq_false_iff_not] at h0
        omega
      have e1 := popcount_unfold (a ||| b)
      have e2 := popcount_unfold a
      have e3 := popcount_unfold b
      rw [hlor_div, ih2] at e1
      omega

/-- popcount of a power of two is one. -/
theorem popcount_two_pow (o : Nat) : popcount (2 ^ o) = 1 := by
  induction o with
  | zero =>
    rw [popcount_unfold]
    norm_num [popcount_zero]
  | succ k ihk =>
    have hde : (2 : Nat) ^ (k + 1) = 2 * 2 ^ k := by ring
    have h1 : 2 ^ (k + 1) % 2 = 0 := by omega
    have h2 : 2 ^ (k + 1) / 2 = 2 ^ k := by omega
    rw [popcount_unfold, h1, h2, ihk]

/-- ORing a fresh bit into a mask adds one to the popcount. -/
theorem popcount_or_two_pow (o m : Nat) (h : m.testBit o = false) :
    popcount (2 ^ o ||| m) = popcount m + 1 := by
  have hdis : ∀ i, (2 ^ o).testBit i = false ∨ m.testBit i = false := by
    intro i
    by_cases hio : o = i
    · subst hio
      exact Or.inr h
    · exact Or.inl (Nat.testBit_two_pow_of_ne hio)
  rw [popcount_lor_disjoint (2 ^ o) m hdis, popcount_two_pow]
  omega

/-- Every set bit of an encoded presence bitmask is the ordinal of some
schema field. -/
theorem encodeFields_mask_bits (previous : Option Record) (current : Record) :
    ∀ (fs : List FieldSpec) (mask : Nat) (ds : List PackedVal),
      encodeFields previous current fs = .ok (mask, ds) →
      ∀ j, mask.testBit j = true → j ∈ fs.map (fun f => f.ordinal) := by
  intro fs
  induction fs with
  | nil =>
    intro mask ds h j hj
    simp only [encodeFields, Except.ok.injEq, Prod.mk.injEq] at h
    rw [← h.1] at hj
    rw [Nat.zero_testBit] at hj
    exact absurd hj (by simp)
  | cons f fs ihf =>
    intro mask ds h j hj
    simp only [encodeFields] at h
    cases he : encodeField f (prevVal previous f) (currVal current f) with
    | error e =>
      rw [he] at h
      simp at h
    | ok od =>
      rw [he] at h
      cases od with
      | none =>
        have hmem := ihf mask ds h j hj
        simp only [List.map_cons, List.mem_cons]
        exact Or.inr (by simpa using hmem)
      | some d =>
        cases hr : encodeFields previous current fs with
        | error e =>
          rw [hr] at h
          simp at h
        | ok p =>
          obtain ⟨mask2, ds2⟩ := p
          rw [hr] at h
          simp only [Except.ok.injEq, Prod.mk.injEq] at h
          obtain ⟨h1, h2⟩ := h
          rw [← h1, Nat.testBit_lor] at hj
          simp only [List.map_cons, List.mem_cons]
          simp only [Bool.or_eq_true] at hj
          rcases hj with hb | hb
          · left
            by_contra hne
            rw [Nat.testBit_two_pow_of_ne (fun hx => hne hx.symm)] at hb
            exact absurd hb (by simp)
          · exact Or.inr (by simpa using ihf mask2 ds2 hr j hb)

/-- Encoded fields satisfy the popcount invariant: the bitmask has exactly
one set bit per packed delta, provided schema ordinals are distinct. -/
theorem encodeFields_popcount (previous : Option Record) (current : Record) :
    ∀ (fs : List FieldSpec) (mask : Nat) (ds : List PackedVal),
      (fs.map (fun f => f.ordinal)).Nodup →
      encodeFields previous current fs = .ok (mask, ds) →
      popcount mask = ds.length := by
  intro fs
  induction fs with
  | nil =>
    intro mask ds hnd h
    simp only [encodeFields, Except.ok.injEq, Prod.mk.injEq] at h
    rw [← h.1, ← h.2]
    simp [popcount_zero]
  | cons f fs ihf =>
    intro mask ds hnd h
    simp only [List.map_cons, List.nodup_cons] at hnd
    simp only [encodeFields] at h
    cases he : encodeField f (prevVal previous f) (currVal current f) with
    | error e =>
      rw [he] at h
      simp at h
    | ok od =>
      rw [he] at h
      cases od with
      | none => exact ihf mask ds hnd.2 h
      | some d =>
        cases hr : encodeFields previous current fs with
        | error e =>
          rw [hr] at h
          simp at h
        | ok p =>
          obtain ⟨mask2, ds2⟩ := p
          rw [hr] at h
          simp only [Except.ok.injEq, Prod.mk.injEq] at h
          obtain ⟨h1, h2⟩ := h
          have hfresh : mask2.testBit f.ordinal = false := by
            by_contra hx
            rw [Bool.not_eq_false] at hx
            exact hnd.1 (by simpa using encodeFields_mask_bits previous current fs mask2 ds2 hr f.ordinal hx)
          rw [← h1, ← h2, popcount_or_two_pow f.ordinal mask2 hfresh,
            ihf mask2 ds2 hnd.2 hr]
          simp

/-- C7: every DeltaEntry produced by encode satisfies
popcount(presence_bitmask) = length(packed_deltas). The encoder is the
only operation of the engine that constructs DeltaEntry values (the
reconstructor and aggregator only consume them), so this is also
preservation across the pipeline. -/
theorem encode_popcount_invariant (schema : List FieldSpec)
    (previous : Option Record) (current : Record) (rid seq eid : Nat)
    (e : DeltaEntry)
    (hnd : (schema.map (fun f => f.ordinal)).Nodup)
    (h : encode schema previous current rid seq eid = .ok e) :
    popcount e.presence_bitmask = e.packed_deltas.length := by
  cases previous with
  | none =>
    simp only [encode] at h
    cases hr : encodeFields none current schema with
    | error er =>
      rw [hr] at h
      simp at h
    | ok p =>
      obtain ⟨mask, ds⟩ := p
      rw [hr] at h
      simp only [Except.ok.injEq] at h
      rw [← h]
      exact encodeFields_popcount none current schema mask ds hnd hr
  | some p =>
    simp only [encode] at h
    by_cases hs : supersetCheck p current
    · rw [if_pos hs] at h
      cases hr : encodeFields (some p) current schema with
      | error er =>
        rw [hr] at h
        simp at h
      | ok q =>
        obtain ⟨mask, ds⟩ := q
        rw [hr] at h
        simp only [Except.ok.injEq] at h
        rw [← h]
        exact encodeFields_popcount (some p) current schema mask ds hnd hr
    · rw [if_neg hs] at h
      simp at h

/-- Concrete two-field int32 schema from the specification scenario. -/
def exSchema : List FieldSpec := [⟨"a", 0, .kint, 32⟩, ⟨"b", 1, .kint, 32⟩]

/-- Scenario records at sequences 1, 2, 3. -/
def exR1 : Record := [(0, .vint 10), (1, .vint 5)]

/-- Scenario record 2. -/
def exR2 : Record := [(0, .vint 10), (1, .vint 7)]

/-- Scenario record 3. -/
def exR3 : Record := [(0, .vint 12), (1, .vint 7)]

/-- The DeltaEntry encoded at sequence 2 of the scenario. -/
def exEntry2 : DeltaEntry :=
  (encode exSchema (some exR1) exR2 7 2 0).toOption.getD ⟨0, 0, 0, [], 0⟩

/-- Witness for C7 at the concrete scenario entry. -/
theorem encode_popcount_invariant_witness :
    popcount exEntry2.presence_bitmask = exEntry2.packed_deltas.length :=
  encode_popcount_invariant exSchema (some exR1) exR2 7 2 0 exEntry2
    (by decide) (by rfl)

/-! ## Minimal-bitmask lemmas -/

/-- A well-typed unchanged field encodes to nothing. -/
theorem encodeField_self (f : FieldSpec) (v : Value)
    (hk : kindMatches f.kind v = true) : encodeField f v v = .ok none := by
  cases hf : f.kind <;> cases v <;>
    simp_all [kindMatches, encodeField, sub_self]

/-- A field that encodes to nothing is unchanged. -/
theorem encodeField_none_unchanged (f : FieldSpec) (pv cv : Value)
    (h : encodeField f pv cv = .ok none) : fieldChanged f pv cv = false := by
  cases hf : f.kind <;> cases pv <;> cases cv <;>
    simp_all [encodeField, fieldChanged] <;> split_ifs at h <;> simp_all

/-- A field that encodes to a packed delta is changed. -/
theorem encodeField_some_changed (f : FieldSpec) (pv cv : Value) (d : PackedVal)
    (h : encodeField f pv cv = .ok (some d)) : fieldChanged f pv cv = true := by
  cases hf : f.kind <;> cases pv <;> cases cv <;>
    simp_all [encodeField, fieldChanged] <;> split_ifs at h <;> simp_all

/-- In a well-formed record with distinct schema ordinals, looking up a
schema ordinal finds the aligned, correctly-typed value. -/
theorem wf_lookup :
    ∀ (fs : List FieldSpec) (r : Record), wfRecord fs r = true →
      (fs.map (fun f => f.ordinal)).Nodup →
      ∀ f ∈ fs, ∃ v, recFind r f.ordinal = some v ∧ kindMatches f.kind v = true := by
  intro fs
  induction fs with
  | nil =>
    intro r hwf hnd f hf
    exact absurd hf (by simp)
  | cons f0 fs ihf =>
    intro r hwf hnd f hf
    cases r with
    | nil => simp [wfRecord] at hwf
    | cons p r2 =>
      obtain ⟨o, v⟩ := p
      simp only [wfRecord, Bool.and_eq_true, beq_iff_eq] at hwf
      obtain ⟨⟨ho, hk⟩, hwf2⟩ := hwf
      simp only [List.map_cons, List.nodup_cons] at hnd
      rcases List.mem_cons.mp hf with hfe | hfe
      · subst hfe
        refine ⟨v, ?_, hk⟩
        rw [recFind, ho]
        simp
      · have hne : f.ordinal ≠ o := by
          rw [ho]
          intro hx
          exact hnd.1 (hx ▸ List.mem_map_of_mem (fun g => g.ordinal) hfe)
        have hstep : recFind ((o, v) :: r2) f.ordinal = recFind r2 f.ordinal := by
          rw [recFind, recFind, List.find?_cons_of_neg]
          simp [Ne.symm hne]
        rw [hstep]
        exact ihf r2 hwf2 hnd.2 f hfe

/-- Encoding a record against itself yields the empty bitmask and no
packed deltas, field by field. -/
theorem encodeFields_self (r : Record) :
    ∀ fs : List FieldSpec,
      (∀ f ∈ fs, kindMatches f.kind (currVal r f) = true) →
      encodeFields (some r) r fs = .ok (0, []) := by
  intro fs
  induction fs with
  | nil => intro h; rfl
  | cons f fs ihf =>
    intro h
    have hpv : prevVal (some r) f = currVal r f := rfl
    simp only [encodeFields, hpv,
      encodeField_self f (currVal r f) (h f (List.mem_cons_self f fs))]
    exact ihf (fun g hg => h g (List.mem_cons_of_mem f hg))

/-- A set bit of the encoded bitmask means the field changed, and a clear
bit means it did not. -/
theorem encodeFields_testBit (previous : Option Record) (current : Record) :
    ∀ (fs : List FieldSpec) (mask : Nat) (ds : List PackedVal),
      (fs.map (fun f => f.ordinal)).Nodup →
      encodeFields previous current fs = .ok (mask, ds) →
      ∀ f ∈ fs, mask.testBit f.ordinal =
        fieldChanged f (prevVal previous f) (currVal current f) := by
  intro fs
  induction fs with
  | nil =>
    intro mask ds hnd h f hf
    exact absurd hf (by simp)
  | cons f0 fs ihf =>
    intro mask ds hnd h f hf
    simp only [List.map_cons, List.nodup_cons] at hnd
    simp only [encodeFields] at h
    cases he : encodeField f0 (prevVal previous f0) (currVal current f0) with
    | error er =>
      rw [he] at h
      simp at h
    | ok od =>
      rw [he] at h
      cases od with
      | none =>
        rcases List.mem_cons.mp hf with hfe | hfe
        · subst hfe
          rw [encodeField_none_unchanged f (prevVal previous f) (currVal current f) he]
          by_contra hx
          rw [Bool.not_eq_false] at hx
          exact hnd.1 (by simpa using
            encodeFields_mask_bits previous current fs mask ds h f.ordinal hx)
        · exact ihf mask ds hnd.2 h f hfe
      | some d =>
        cases hr : encodeFields previous current fs with
        | error er =>
          rw [hr] at h
          simp at h
        | ok q =>
          obtain ⟨mask2, ds2⟩ := q
          rw [hr] at h
          simp only [Except.ok.injEq, Prod.mk.injEq] at h
          obtain ⟨h1, h2⟩ := h
          rcases List.mem_cons.mp hf with hfe | hfe
          · subst hfe
            rw [← h1, Nat.testBit_lor, Nat.testBit_two_pow_self,
              encodeField_some_changed f (prevVal previous f) (currVal current f) d he]
            simp
          · have hne : f0.ordinal ≠ f.ordinal := by
              intro hx
              exact hnd.1 (hx ▸ List.mem_map_of_mem (fun g => g.ordinal) hfe)
            rw [← h1, Nat.testBit_lor, Nat.testBit_two_pow_of_ne hne,
              Bool.false_or]
            exact ihf mask2 ds2 hnd.2 hr f hfe

/-- The superset check passes on identical records. -/
theorem supersetCheck_self (r : Record) : supersetCheck r r = true := by
  simp only [supersetCheck, List.all_eq_true]
  intro o ho
  simpa using ho

/-- C4: encoding a record against an identical previous record yields a
DeltaEntry with empty presence bitmask and no packed deltas; in general a
field ordinal is set in the bitmask iff the computed delta of that field
is non-zero. -/
theorem encode_minimal_bitmask :
    (∀ (schema : List FieldSpec) (r : Record) (rid seq eid : Nat),
      (schema.map (fun f => f.ordinal)).Nodup → wfRecord schema r = true →
      encode schema (some r) r rid seq eid = .ok ⟨rid, seq, 0, [], eid⟩) ∧
    (∀ (schema : List FieldSpec) (previous : Option Record) (current : Record)
        (rid seq eid : Nat) (e : DeltaEntry),
      (schema.map (fun f => f.ordinal)).Nodup →
      encode schema previous current rid seq eid = .ok e →
      ∀ f ∈ schema, e.presence_bitmask.testBit f.ordinal =
        fieldChanged f (prevVal previous f) (currVal current f)) := by
  constructor
  · intro schema r rid seq eid hnd hwf
    have htypes : ∀ f ∈ schema, kindMatches f.kind (currVal r f) = true := by
      intro f hf
      obtain ⟨v, hv, hk⟩ := wf_lookup schema r hwf hnd f hf
      rw [currVal, hv]
      exact hk
    simp only [encode, if_pos (supersetCheck_self r),
      encodeFields_self r schema htypes]
  · intro schema previous current rid seq eid e hnd h
    intro f hf
    cases previous with
    | none =>
      simp only [encode] at h
      cases hr : encodeFields none current schema with
      | error er =>
        rw [hr] at h
        simp at h
      | ok q =>
        obtain ⟨mask, ds⟩ := q
        rw [hr] at h
        simp only [Except.ok.injEq] at h
        rw [← h]
        exact encodeFields_testBit none current schema mask ds hnd hr f hf
    | some p =>
      simp only [encode] at h
      by_cases hs : supersetCheck p current
      · rw [if_pos hs] at h
        cases hr : encodeFields (some p) current schema with
        | error er =>
          rw [hr] at h
          simp at h
        | ok q =>
          obtain ⟨mask, ds⟩ := q
          rw [hr] at h
          simp only [Except.ok.injEq] at h
          rw [← h]
          exact encodeFields_testBit (some p) current schema mask ds hnd hr f hf
      · rw [if_neg hs] at h
        simp at h

/-- Witness for C4 at the concrete scenario: encoding record 1 against
itself yields the empty entry, and the sequence-2 entry has exactly the
bit of field b set. -/
theorem encode_minimal_bitmask_witness :
    encode exSchema (some exR1) exR1 7 9 0 = .ok ⟨7, 9, 0, [], 0⟩ ∧
    exEntry2.presence_bitmask.testBit 1 =
      fieldChanged ⟨"b", 1, .kint, 32⟩ (prevVal (some exR1) ⟨"b", 1, .kint, 32⟩)
        (currVal exR2 ⟨"b", 1, .kint, 32⟩) := by
  constructor
  · exact encode_minimal_bitmask.1 exSchema exR1 7 9 0 (by decide) (by decide)
  · exact encode_minimal_bitmask.2 exSchema (some exR1) exR2 7 2 0 exEntry2
      (by decide) (by rfl) ⟨"b", 1, .kint, 32⟩ (by decide)

/-! ## Encoder error conditions -/

/-- Modelled from the spec: the computed delta of an integer field
exceeds the maximum magnitude representable at full field width (in
zig-zag form it needs at least one bit more than the field provides). -/
def widthOverflows (f : FieldSpec) (pv cv : Value) : Bool :=
  match f.kind, pv, cv with
  | .kint, .vint a, .vint b =>
    decide (b - a ≠ 0) && decide (2 ^ f.bit_width ≤ zigzag (b - a))
  | .kuint, .vint a, .vint b =>
    decide (b - a ≠ 0) && decide (2 ^ f.bit_width ≤ zigzag (b - a))
  | _, _, _ => false

/-- A well-typed field either overflows (and the encoder reports exactly
WidthOverflow) or encodes successfully. -/
theorem encodeField_classify (f : FieldSpec) (pv cv : Value)
    (h1 : kindMatches f.kind pv = true) (h2 : kindMatches f.kind cv = true) :
    (widthOverflows f pv cv = true ∧ encodeField f pv cv = .error .widthOverflow) ∨
    (widthOverflows f pv cv = false ∧ ∃ od, encodeField f pv cv = .ok od) := by
  cases hf : f.kind <;> cases pv <;> cases cv <;>
    simp_all [kindMatches, encodeField, widthOverflows] <;>
    split_ifs <;> simp_all

/-- Under well-typed values, encodeFields either succeeds with no field
overflowing, or fails with WidthOverflow and some field overflowing. -/
theorem encodeFields_classify (previous : Option Record) (current : Record) :
    ∀ fs : List FieldSpec,
      (∀ f ∈ fs, kindMatches f.kind (prevVal previous f) = true ∧
        kindMatches f.kind (currVal current f) = true) →
      ((∃ mask ds, encodeFields previous current fs = .ok (mask, ds)) ∧
        ∀ f ∈ fs, widthOverflows f (prevVal previous f) (currVal current f) = false) ∨
      (encodeFields previous current fs = .error .widthOverflow ∧
        ∃ f ∈ fs, widthOverflows f (prevVal previous f) (currVal current f) = true) := by
  intro fs
  induction fs with
  | nil =>
    intro h
    exact Or.inl ⟨⟨0, [], rfl⟩, by simp⟩
  | cons f0 fs ihf =>
    intro h
    obtain ⟨hk1, hk2⟩ := h f0 (List.mem_cons_self f0 fs)
    rcases encodeField_classify f0 (prevVal previous f0) (currVal current f0) hk1 hk2 with
      ⟨hov, he⟩ | ⟨hov, od, he⟩
    · refine Or.inr ⟨?_, f0, List.mem_cons_self f0 fs, hov⟩
      simp only [encodeFields, he]
    · rcases ihf (fun g hg => h g (List.mem_cons_of_mem f0 hg)) with
        ⟨⟨mask, ds, hr⟩, hnone⟩ | ⟨hr, f, hf, hov2⟩
      · refine Or.inl ⟨?_, ?_⟩
        · cases od with
          | none => exact ⟨mask, ds, by simp only [encodeFields, he]; exact hr⟩
          | some d =>
            exact ⟨2 ^ f0.ordinal ||| mask, d :: ds, by
              simp only [encodeFields, he, hr]⟩
        · intro g hg
          rcases List.mem_cons.mp hg with hge | hge
          · subst hge
            exact hov
          · exact hnone g hge
      · refine Or.inr ⟨?_, f, List.mem_cons_of_mem f0 hf, hov2⟩
        cases od with
        | none => simp only [encodeFields, he]; exact hr
        | some d => simp only [encodeFields, he, hr]

/-- C6: encode fails with SchemaMismatch when the current record lacks an
ordinal of the previous one (the superset check is exactly ordinal-set
inclusion); under well-typed values it fails with WidthOverflow iff some
field delta exceeds the representable magnitude at full field width; a
successful encode has no overflowing field, so no delta is ever silently
truncated. -/
theorem encode_error_conditions :
    (∀ (schema : List FieldSpec) (p current : Record) (rid seq eid : Nat),
      supersetCheck p current = false →
      encode schema (some p) current rid seq eid = .error .schemaMismatch) ∧
    (∀ p current : Record,
      supersetCheck p current = true ↔ ∀ o ∈ ordinalsOf p, o ∈ ordinalsOf current) ∧
    (∀ (schema : List FieldSpec) (p current : Record) (rid seq eid : Nat),
      supersetCheck p current = true →
      (∀ f ∈ schema, kindMatches f.kind (prevVal (some p) f) = true ∧
        kindMatches f.kind (currVal current f) = true) →
      (encode schema (some p) current rid seq eid = .error .widthOverflow ↔
        ∃ f ∈ schema, widthOverflows f (prevVal (some p) f) (currVal current f) = true)) ∧
    (∀ (schema : List FieldSpec) (previous : Option Record) (current : Record)
        (rid seq eid : Nat) (e : DeltaEntry),
      (∀ f ∈ schema, kindMatches f.kind (prevVal previous f) = true ∧
        kindMatches f.kind (currVal current f) = true) →
      encode schema previous current rid seq eid = .ok e →
      ∀ f ∈ schema, widthOverflows f (prevVal previous f) (currVal current f) = false) := by
  refine ⟨?_, ?_, ?_, ?_⟩
  · intro schema p current rid seq eid hs
    simp only [encode, hs]
    simp
  · intro p current
    simp only [supersetCheck, List.all_eq_true]
    constructor
    · intro h o ho
      simpa using h o ho
    · intro h o ho
      simpa using h o ho
  · intro schema p current rid seq eid hs htypes
    rcases encodeFields_classify (some p) current schema htypes with
      ⟨⟨mask, ds, hr⟩, hnone⟩ | ⟨hr, f, hf, hov⟩
    · constructor
      · intro h
        rw [encode, if_pos hs, hr] at h
        exact absurd h (by simp)
      · rintro ⟨f, hf, hov⟩
        exact absurd (hnone f hf) (by simp [hov])
    · constructor
      · intro h
        exact ⟨f, hf, hov⟩
      · intro h
        rw [encode, if_pos hs, hr]
  · intro schema previous current rid seq eid e htypes h
    rcases encodeFields_classify previous current schema htypes with
      ⟨hok, hnone⟩ | ⟨hr, f, hf, hov⟩
    · exact hnone
    · exfalso
      cases previous with
      | none =>
        rw [encode, hr] at h
        exact absurd h (by simp)
      | some p =>
        rw [encode] at h
        by_cases hs : supersetCheck p current
        · rw [if_pos hs, hr] at h
          exact absurd h (by simp)
        · rw [if_neg hs] at h
          exact absurd h (by simp)

/-- Witness for C6 at concrete inputs: dropping an ordinal is a
SchemaMismatch; a delta of 5 in a 2-bit field is a WidthOverflow. -/
theorem encode_error_conditions_witness :
    encode exSchema (some [(0, .vint 10), (1, .vint 5), (2, .vint 1)]) exR2 0 2 0 =
      .error .schemaMismatch ∧
    encode [⟨"a", 0, .kint, 2⟩] (some [(0, .vint 0)]) [(0, .vint 5)] 0 1 0 =
      .error .widthOverflow := by
  constructor
  · exact encode_error_conditions.1 exSchema
      [(0, .vint 10), (1, .vint 5), (2, .vint 1)] exR2 0 2 0 (by decide)
  · exact (encode_error_conditions.2.2.1 [⟨"a", 0, .kint, 2⟩]
      [(0, .vint 0)] [(0, .vint 5)] 0 1 0 (by decide) (by decide)).mpr
      ⟨⟨"a", 0, .kint, 2⟩, by simp, by decide⟩

/-! ## Bitmask aggregator / committer -/

/-- Modelled from the spec: a digest as produced by the cryptographic
hash H over (left.digest, right.digest, or_mask, field_change_counts);
H is modelled as a perfect (collision-free) hash, i.e. an injective
constructor, with hEmpty the digest H(empty) of a neutral padding leaf
(the hash implementation is missing from the source tree). -/
inductive Digest where
  | hEmpty
  | hLeaf (mask : Nat)
  | hNode (l r : Digest) (orMask : Nat) (counts : List Nat)
deriving DecidableEq

/-- Modelled from the spec: the BitmaskNode aggregation tree; a leaf
wraps a single DeltaEntry bitmask (some mask) or is a neutral padding
leaf (none). -/
inductive MTree where
  | mleaf (entry : Option Nat)
  | mnode (l r : MTree)

/-- or_mask of a node: bitwise OR of all descendant presence bitmasks. -/
def MTree.orMask : MTree → Nat
  | .mleaf none => 0
  | .mleaf (some m) => m
  | .mnode l r => l.orMask ||| r.orMask

/-- field_change_counts at one ordinal: summed from descendants, one per
leaf whose bitmask has the bit set. -/
def MTree.countsAt : MTree → Nat → Nat
  | .mleaf none, _ => 0
  | .mleaf (some m), k => if m.testBit k then 1 else 0
  | .mnode l r, k => l.countsAt k + r.countsAt k

/-- The per-ordinal counter vector serialized for ordinals below maxOrd. -/
def MTree.countsList (maxOrd : Nat) (t : MTree) : List Nat :=
  (List.range maxOrd).map (fun k => t.countsAt k)

/-- digest of a node: H(left.digest, right.digest, or_mask, counts). -/
def MTree.digest (maxOrd : Nat) : MTree → Digest
  | .mleaf none => .hEmpty
  | .mleaf (some m) => .hLeaf m
  | .mnode l r =>
    .hNode (l.digest maxOrd) (r.digest maxOrd)
      ((MTree.mnode l r).orMask) ((MTree.mnode l r).countsList maxOrd)

/-- Modelled from the spec: build the balanced binary tree of depth d
over a leaf list of length 2 ^ d, leaf-left-to-right. -/
def buildTree : Nat → List (Option Nat) → MTree
  | 0, l => .mleaf ((l.head?).getD none)
  | d + 1, l =>
    .mnode (buildTree d (l.take (2 ^ d))) (buildTree d (l.drop (2 ^ d)))

/-- Modelled from the spec: pad the ordered leaf sequence to the next
power of two with neutral leaves. -/
def padLeaves (masks : List Nat) : List (Option Nat) :=
  masks.map some ++ List.replicate (2 ^ Nat.clog 2 masks.length - masks.length) none

/-- Depth of the sealed tree: a function of the leaf count alone. -/
def treeDepth (leafCount : Nat) : Nat := Nat.clog 2 leafCount

/-- The sealed aggregation tree over the ordered bitmask leaves. -/
def sealTreeOf (masks : List Nat) : MTree :=
  buildTree (treeDepth masks.length) (padLeaves masks)

/-- Modelled from the spec: EpochCommitment published once an epoch
closes. -/
structure EpochCommitment where
  epoch_id : Nat
  root_digest : Digest
  leaf_count : Nat
deriving DecidableEq

/-- Modelled from the spec: aggregator error taxonomy. -/
inductive AggError where
  | epochAlreadySealed
  | outOfOrderIngest
deriving DecidableEq

/-- Modelled from the spec: aggregator state of the open epoch: the
ordered ingested entries and the sealed flag. -/
structure AggState where
  epoch_id : Nat
  entries : List DeltaEntry
  isSealed : Bool
deriving DecidableEq

/-- A freshly opened epoch. -/
def freshAgg (eid : Nat) : AggState := ⟨eid, [], false⟩

/-- Modelled from the spec: ingest appends a leaf in order; fails with
EpochAlreadySealed after seal and OutOfOrderIngest on an epoch mismatch. -/
def ingest (st : AggState) (e : DeltaEntry) : Except AggError AggState :=
  if st.isSealed then .error .epochAlreadySealed
  else if e.epoch_id != st.epoch_id then .error .outOfOrderIngest
  else .ok { st with entries := st.entries ++ [e] }

/-- Ingest a list of entries in order. -/
def ingestList (st : AggState) : List DeltaEntry → Except AggError AggState
  | [] => .ok st
  | e :: rest =>
    match ingest st e with
    | .error er => .error er
    | .ok st2 => ingestList st2 rest

/-- Modelled from the spec: seal closes the epoch, builds the padded
power-of-two tree and emits the commitment. -/
def sealEpoch (maxOrd : Nat) (st : AggState) : EpochCommitment × AggState :=
  (⟨st.epoch_id,
    (sealTreeOf (st.entries.map (fun e => e.presence_bitmask))).digest maxOrd,
    st.entries.length⟩,
   { st with isSealed := true })

/-! ## Proof generator / verifier -/

/-- Covering-proof node: a covered subtree carries digest and or_mask, a
disjoint subtree only its digest, and a split node the or_mask and
counts needed to recompute the parent digest. -/
inductive PTree where
  | covered (dig : Digest) (orMask : Nat)
  | pruned (dig : Digest)
  | branch (orMask : Nat) (counts : List Nat) (l r : PTree)
deriving DecidableEq

/-- Modelled from the spec: ExclusionProof for
(field_ordinal, from_seq, to_seq). -/
structure ExclusionProof where
  field_ordinal : Nat
  fromSeq : Nat
  toSeq : Nat
  ptree : PTree
deriving DecidableEq

/-- Modelled from the spec: FrequencyProof revealing the root-level
counter of one field with the data needed to recompute the root. -/
structure FrequencyProof where
  field_ordinal : Nat
  count : Nat
  rootOrMask : Nat
  rootCounts : List Nat
  childDigests : Option (Digest × Digest)
deriving DecidableEq

/-- Modelled from the spec: polymorphic proof as a tagged variant. -/
inductive Proof where
  | exclusion (p : ExclusionProof)
  | frequency (p : FrequencyProof)
deriving DecidableEq

/-- Recompute the root digest from an exclusion proof. -/
def recomputeRoot : PTree → Digest
  | .covered dig _ => dig
  | .pruned dig => dig
  | .branch m c l r => .hNode (recomputeRoot l) (recomputeRoot r) m c

/-- Check that every covering subtree has the queried bit clear. -/
def maskClear (fo : Nat) : PTree → Bool
  | .covered _ m => !(m.testBit fo)
  | .pruned _ => true
  | .branch _ _ l r => maskClear fo l && maskClear fo r

/-- Modelled from the spec: walk the sealed tree and collect the minimal
set of subtree digests and or_masks covering exactly the in-range
leaves; subtrees disjoint from the range contribute only digests. -/
def coverTree (maxOrd : Nat) (inR : Nat → Bool) :
    Nat → Nat → List (Option Nat) → PTree
  | 0, base, l =>
    let t := buildTree 0 l
    if inR base then .covered (t.digest maxOrd) t.orMask
    else .pruned (t.digest maxOrd)
  | d + 1, base, l =>
    let t := buildTree (d + 1) l
    if (List.range (2 ^ (d + 1))).all (fun j => !inR (base + j)) then
      .pruned (t.digest maxOrd)
    else if (List.range (2 ^ (d + 1))).all (fun j => inR (base + j)) then
      .covered (t.digest maxOrd) t.orMask
    else
      .branch t.orMask (t.countsList maxOrd)
        (coverTree maxOrd inR d base (l.take (2 ^ d)))
        (coverTree maxOrd inR d (base + 2 ^ d) (l.drop (2 ^ d)))

/-- Is aggregator leaf index i in the queried sequence range. -/
def inRangePred (entries : List DeltaEntry) (fromSeq toSeq : Nat) (i : Nat) : Bool :=
  match entries[i]? with
  | some e => decide (fromSeq ≤ e.sequence) && decide (e.sequence ≤ toSeq)
  | none => false

/-- Modelled from the spec: prove_exclusion(epoch, field, from, to)
builds the covering proof over the sealed tree. -/
def prove_exclusion (maxOrd : Nat) (st : AggState) (fo fromSeq toSeq : Nat) : Proof :=
  let masks := st.entries.map (fun e => e.presence_bitmask)
  .exclusion ⟨fo, fromSeq, toSeq,
    coverTree maxOrd (inRangePred st.entries fromSeq toSeq)
      (treeDepth masks.length) 0 (padLeaves masks)⟩

/-- Modelled from the spec: prove_frequency(epoch, field) reveals the
root-level field_change_counts entry of the field together with the
root reconstruction data. -/
def prove_frequency (maxOrd : Nat) (st : AggState) (fo : Nat) : Proof :=
  let t := sealTreeOf (st.entries.map (fun e => e.presence_bitmask))
  .frequency ⟨fo, t.countsAt fo, t.orMask, t.countsList maxOrd,
    match t with
    | .mleaf _ => none
    | .mnode l r => some (l.digest maxOrd, r.digest maxOrd)⟩

/-- The count a frequency proof discloses. -/
def disclosedCount : Proof → Nat
  | .frequency fp => fp.count
  | .exclusion _ => 0

/-- Modelled from the spec: the common verify entry point, a pure
function of (proof, root_digest), dispatching on the proof tag. An
exclusion proof is rejected when the recomputed root mismatches the
commitment or some covering or_mask has the bit set; a frequency proof
when the root recomputed from the claimed aggregates mismatches or the
disclosed count is not the claimed counter entry. -/
def verify (p : Proof) (root : Digest) : Bool :=
  match p with
  | .exclusion ep =>
    decide (recomputeRoot ep.ptree = root) && maskClear ep.field_ordinal ep.ptree
  | .frequency fp =>
    (match fp.childDigests with
     | some (dl, dr) => decide (Digest.hNode dl dr fp.rootOrMask fp.rootCounts = root)
     | none => decide (Digest.hLeaf fp.rootOrMask = root ∨ Digest.hEmpty = root)) &&
    decide (fp.rootCounts.getD fp.field_ordinal 0 = fp.count)

/-! ## Aggregator lemmas -/

/-- A successful ingest appends the entry and changes nothing else. -/
theorem ingest_ok (st : AggState) (e : DeltaEntry) (st2 : AggState)
    (h : ingest st e = .ok st2) :
    st2 = { st with entries := st.entries ++ [e] } := by
  unfold ingest at h
  split_ifs at h with h1 h2
  injection h with h3
  exact h3.symm

/-- Ingesting a list appends it in order and preserves epoch id and the
sealed flag. -/
theorem ingestList_ok (es : List DeltaEntry) :
    ∀ (st0 st : AggState), ingestList st0 es = .ok st →
      st.entries = st0.entries ++ es ∧ st.epoch_id = st0.epoch_id ∧
        st.isSealed = st0.isSealed := by
  induction es with
  | nil =>
    intro st0 st h
    simp only [ingestList, Except.ok.injEq] at h
    rw [← h]
    simp
  | cons e rest ihe =>
    intro st0 st h
    simp only [ingestList] at h
    cases hing : ingest st0 e with
    | error er =>
      rw [hing] at h
      simp at h
    | ok st1 =>
      rw [hing] at h
      have h1 := ingest_ok st0 e st1 hing
      obtain ⟨ha, hb, hc⟩ := ihe st1 st h
      subst h1
      refine ⟨?_, hb, hc⟩
      rw [ha]
      simp

/-- Count of one leaf at one ordinal. -/
def leafCountAt (k : Nat) : Option Nat → Nat
  | some m => if m.testBit k then 1 else 0
  | none => 0

/-- The counter of a built tree at an ordinal is the sum of the leaf
indicators. -/
theorem countsAt_buildTree (k : Nat) :
    ∀ (d : Nat) (l : List (Option Nat)), l.length = 2 ^ d →
      (buildTree d l).countsAt k = (l.map (leafCountAt k)).sum := by
  intro d
  induction d with
  | zero =>
    intro l hl
    have h1 : l.length = 1 := by simpa using hl
    obtain ⟨a, ha⟩ := List.length_eq_one.mp h1
    subst ha
    cases a with
    | none => simp [buildTree, MTree.countsAt, leafCountAt]
    | some m => simp [buildTree, MTree.countsAt, leafCountAt]
  | succ d ihd =>
    intro l hl
    have hpow : (2 : Nat) ^ (d + 1) = 2 ^ d + 2 ^ d := by
      rw [pow_succ]
      omega
    have htake : (l.take (2 ^ d)).length = 2 ^ d := by
      rw [List.length_take]
      omega
    have hdrop : (l.drop (2 ^ d)).length = 2 ^ d := by
      rw [List.length_drop]
      omega
    have hsplit := List.take_append_drop (2 ^ d) l
    conv_rhs => rw [← hsplit]
    rw [List.map_append, List.sum_append, ← ihd (l.take (2 ^ d)) htake,
      ← ihd (l.drop (2 ^ d)) hdrop]
    simp [buildTree, MTree.countsAt]

/-- The padded leaf list has exactly the power-of-two length determined
by the leaf count. -/
theorem padLeaves_length (masks : List Nat) :
    (padLeaves masks).length = 2 ^ treeDepth masks.length := by
  have hle : masks.length ≤ 2 ^ Nat.clog 2 masks.length :=
    Nat.le_pow_clog (by omega) masks.length
  simp only [padLeaves, treeDepth, List.length_append, List.length_map,
    List.length_replicate]
  omega

/-- Sum of boolean indicators equals countP. -/
theorem sum_indicator_countP {α : Type} (p : α → Bool) :
    ∀ xs : List α, (xs.map (fun x => if p x then 1 else 0)).sum = xs.countP p := by
  intro xs
  induction xs with
  | nil => simp
  | cons x xs ihx =>
    by_cases hx : p x <;> simp [List.countP_cons, hx, ihx, Nat.add_comm]

/-- The root counter at an ordinal over a sealed leaf list equals the
number of leaves whose bitmask has the bit set. -/
theorem countsAt_sealTreeOf (masks : List Nat) (k : Nat) :
    (sealTreeOf masks).countsAt k = masks.countP (fun m => m.testBit k) := by
  rw [sealTreeOf, countsAt_buildTree k (treeDepth masks.length) (padLeaves masks)
    (padLeaves_length masks)]
  simp only [padLeaves, List.map_append, List.sum_append, List.map_map,
    List.map_replicate]
  have h2 : leafCountAt k none = 0 := rfl
  rw [h2]
  have h3 : (List.replicate (2 ^ Nat.clog 2 masks.length - masks.length) 0).sum = 0 := by
    simp
  rw [h3]
  have h4 : (leafCountAt k ∘ some) = fun m => if Nat.testBit m k then 1 else 0 := by
    funext m
    rfl
  rw [h4, sum_indicator_countP (fun m => m.testBit k) masks]
  omega

/-- C3: the count disclosed by prove_frequency over a sealed epoch
equals the number of DeltaEntries ingested into that epoch whose
presence bitmask includes the field ordinal. -/
theorem prove_frequency_correct (maxOrd eid : Nat) (es : List DeltaEntry)
    (st : AggState) (fo : Nat)
    (h : ingestList (freshAgg eid) es = .ok st) :
    disclosedCount (prove_frequency maxOrd (sealEpoch maxOrd st).2 fo) =
      (es.filter (fun e => e.presence_bitmask.testBit fo)).length := by
  obtain ⟨hent, _, _⟩ := ingestList_ok es (freshAgg eid) st h
  have hent2 : (sealEpoch maxOrd st).2.entries = es := by
    rw [sealEpoch]
    simpa using hent
  have hd : disclosedCount (prove_frequency maxOrd (sealEpoch maxOrd st).2 fo) =
      (sealTreeOf ((sealEpoch maxOrd st).2.entries.map
        (fun e => e.presence_bitmask))).countsAt fo := rfl
  rw [hd, hent2, countsAt_sealTreeOf, List.countP_map,
    List.countP_eq_length_filter]
  rfl

/-- Witness for C3: three concrete entries, two of which touch field 1. -/
theorem prove_frequency_correct_witness :
    disclosedCount (prove_frequency 2 (sealEpoch 2
      ((ingestList (freshAgg 0) [⟨7, 1, 3, [.intDelta 1, .intDelta 1], 0⟩,
        ⟨7, 2, 2, [.intDelta 1], 0⟩, ⟨7, 3, 1, [.intDelta 1], 0⟩]).toOption.getD
        (freshAgg 0))).2 1) =
      (([⟨7, 1, 3, [.intDelta 1, .intDelta 1], 0⟩, ⟨7, 2, 2, [.intDelta 1], 0⟩,
        ⟨7, 3, 1, [.intDelta 1], 0⟩] : List DeltaEntry).filter
        (fun e => e.presence_bitmask.testBit 1)).length :=
  prove_frequency_correct 2 0
    [⟨7, 1, 3, [.intDelta 1, .intDelta 1], 0⟩, ⟨7, 2, 2, [.intDelta 1], 0⟩,
      ⟨7, 3, 1, [.intDelta 1], 0⟩] _ 1 (by rfl)

/-- C5: sealing is deterministic: two ingestion runs of the same ordered
leaf sequence yield the same root digest; the ingested entries are
exactly the ordered input; the padded leaf list has power-of-two length
determined by leaf count alone, built by appending neutral leaves whose
or_mask is 0, whose counters are 0 and whose digest is H(empty). -/
theorem seal_deterministic (maxOrd eid : Nat) (es : List DeltaEntry)
    (s1 s2 : AggState)
    (h1 : ingestList (freshAgg eid) es = .ok s1)
    (h2 : ingestList (freshAgg eid) es = .ok s2) :
    (sealEpoch maxOrd s1).1.root_digest = (sealEpoch maxOrd s2).1.root_digest ∧
    (sealEpoch maxOrd s1).1.leaf_count = es.length ∧
    (sealEpoch maxOrd s1).1.epoch_id = eid ∧
    s1.entries = es ∧
    (padLeaves (es.map (fun e => e.presence_bitmask))).length =
      2 ^ treeDepth es.length ∧
    padLeaves (es.map (fun e => e.presence_bitmask)) =
      (es.map (fun e => e.presence_bitmask)).map some ++
        List.replicate (2 ^ treeDepth es.length - es.length) none ∧
    ((MTree.mleaf none).orMask = 0 ∧ (∀ k, (MTree.mleaf none).countsAt k = 0) ∧
      (MTree.mleaf none).digest maxOrd = Digest.hEmpty) := by
  obtain ⟨he1, hp1, _⟩ := ingestList_ok es (freshAgg eid) s1 h1
  obtain ⟨he2, hp2, _⟩ := ingestList_ok es (freshAgg eid) s2 h2
  simp only [freshAgg, List.nil_append] at he1 he2 hp1 hp2
  refine ⟨?_, ?_, ?_, he1, ?_, ?_, rfl, fun k => rfl, rfl⟩
  · simp only [sealEpoch, he1, he2]
  · simp only [sealEpoch, he1]
  · simp only [sealEpoch, hp1]
  · rw [padLeaves_length]
    simp [treeDepth]
  · simp [padLeaves, treeDepth]

/-- Witness for C5 at a concrete two-entry run. -/
theorem seal_deterministic_witness :
    (sealEpoch 2 ((ingestList (freshAgg 3) [⟨7, 1, 1, [.intDelta 1], 3⟩,
        ⟨7, 2, 2, [.intDelta 2], 3⟩]).toOption.getD (freshAgg 3))).1.root_digest =
      (sealEpoch 2 ((ingestList (freshAgg 3) [⟨7, 1, 1, [.intDelta 1], 3⟩,
        ⟨7, 2, 2, [.intDelta 2], 3⟩]).toOption.getD (freshAgg 3))).1.root_digest ∧
    (sealEpoch 2 ((ingestList (freshAgg 3) [⟨7, 1, 1, [.intDelta 1], 3⟩,
        ⟨7, 2, 2, [.intDelta 2], 3⟩]).toOption.getD (freshAgg 3))).1.leaf_count = 2 :=
  ⟨(seal_deterministic 2 3 [⟨7, 1, 1, [.intDelta 1], 3⟩, ⟨7, 2, 2, [.intDelta 2], 3⟩]
      _ _ (by rfl) (by rfl)).1,
   (seal_deterministic 2 3 [⟨7, 1, 1, [.intDelta 1], 3⟩, ⟨7, 2, 2, [.intDelta 2], 3⟩]
      _ _ (by rfl) (by rfl)).2.1⟩

/-! ## Exclusion soundness -/

/-- A set bit of any leaf is set in the or_mask of the built tree. -/
theorem orMask_buildTree_bit (k : Nat) :
    ∀ (d : Nat) (l : List (Option Nat)) (i m : Nat), l.length = 2 ^ d →
      i < 2 ^ d → l[i]? = some (some m) → m.testBit k = true →
      (buildTree d l).orMask.testBit k = true := by
  intro d
  induction d with
  | zero =>
    intro l i m hl hi hli hbit
    have h1 : l.length = 1 := by simpa using hl
    obtain ⟨a, ha⟩ := List.length_eq_one.mp h1
    subst ha
    have hi0 : i = 0 := by omega
    subst hi0
    simp only [List.getElem?_cons_zero, Option.some.injEq] at hli
    subst hli
    simpa [buildTree, MTree.orMask] using hbit
  | succ d ihd =>
    intro l i m hl hi hli hbit
    have hpow : (2 : Nat) ^ (d + 1) = 2 ^ d + 2 ^ d := by
      rw [pow_succ]
      omega
    have htake : (l.take (2 ^ d)).length = 2 ^ d := by
      rw [List.length_take]
      omega
    have hdrop : (l.drop (2 ^ d)).length = 2 ^ d := by
      rw [List.length_drop]
      omega
    simp only [buildTree, MTree.orMask, Nat.testBit_lor]
    by_cases hlt : i < 2 ^ d
    · have hlt2 : (l.take (2 ^ d))[i]? = some (some m) := by
        rw [List.getElem?_take, if_pos hlt]
        exact hli
      rw [ihd (l.take (2 ^ d)) i m htake hlt hlt2 hbit]
      simp
    · have hidx : (l.drop (2 ^ d))[i - 2 ^ d]? = some (some m) := by
        rw [List.getElem?_drop]
        have : 2 ^ d + (i - 2 ^ d) = i := by omega
        rw [this]
        exact hli
      have hlt3 : i - 2 ^ d < 2 ^ d := by omega
      rw [ihd (l.drop (2 ^ d)) (i - 2 ^ d) m hdrop hlt3 hidx hbit]
      simp

/-- If some in-range leaf has the queried bit set, the covering proof
fails the mask check. -/
theorem maskClear_coverTree_false (maxOrd fo : Nat) (inR : Nat → Bool) :
    ∀ (d base : Nat) (l : List (Option Nat)) (i m : Nat),
      l.length = 2 ^ d → i < 2 ^ d → l[i]? = some (some m) →
      m.testBit fo = true → inR (base + i) = true →
      maskClear fo (coverTree maxOrd inR d base l) = false := by
  intro d
  induction d with
  | zero =>
    intro base l i m hl hi hli hbit hinR
    have hi0 : i = 0 := by omega
    subst hi0
    have h1 : l.length = 1 := by simpa using hl
    obtain ⟨a, ha⟩ := List.length_eq_one.mp h1
    subst ha
    simp only [List.getElem?_cons_zero, Option.some.injEq] at hli
    subst hli
    rw [Nat.add_zero] at hinR
    simp only [coverTree, hinR, if_pos]
    simp [maskClear, buildTree, MTree.orMask, hbit]
  | succ d ihd =>
    intro base l i m hl hi hli hbit hinR
    simp only [coverTree]
    by_cases hall0 : (List.range (2 ^ (d + 1))).all (fun j => !inR (base + j)) = true
    · exfalso
      rw [List.all_eq_true] at hall0
      have := hall0 i (List.mem_range.mpr hi)
      simp only [Bool.not_eq_true'] at this
      rw [hinR] at this
      exact absurd this (by simp)
    · rw [if_neg hall0]
      by_cases hall1 : (List.range (2 ^ (d + 1))).all (fun j => inR (base + j)) = true
      · rw [if_pos hall1]
        simp only [maskClear, Bool.not_eq_false]
        rw [orMask_buildTree_bit fo (d + 1) l i m hl hi hli hbit]
        rfl
      · rw [if_neg hall1]
        simp only [maskClear]
        have hpow : (2 : Nat) ^ (d + 1) = 2 ^ d + 2 ^ d := by
          rw [pow_succ]
          omega
        have htake : (l.take (2 ^ d)).length = 2 ^ d := by
          rw [List.length_take]
          omega
        have hdrop : (l.drop (2 ^ d)).length = 2 ^ d := by
          rw [List.length_drop]
          omega
        by_cases hlt : i < 2 ^ d
        · have hlt2 : (l.take (2 ^ d))[i]? = some (some m) := by
            rw [List.getElem?_take, if_pos hlt]
            exact hli
          rw [ihd base (l.take (2 ^ d)) i m htake hlt hlt2 hbit hinR]
          simp
        · have hidx : (l.drop (2 ^ d))[i - 2 ^ d]? = some (some m) := by
            rw [List.getElem?_drop]
            have : 2 ^ d + (i - 2 ^ d) = i := by omega
            rw [this]
            exact hli
          have hlt3 : i - 2 ^ d < 2 ^ d := by omega
          have hinR2 : inR (base + 2 ^ d + (i - 2 ^ d)) = true := by
            have : base + 2 ^ d + (i - 2 ^ d) = base + i := by omega
            rw [this]
            exact hinR
          rw [ihd (base + 2 ^ d) (l.drop (2 ^ d)) (i - 2 ^ d) m hdrop hlt3 hidx hbit hinR2]
          simp

/-- C2: if any DeltaEntry whose sequence lies in [from_seq, to_seq] has
the field bit set, then the exclusion proof built by prove_exclusion
over the sealed epoch is rejected by verify against the epoch
commitment root digest (the mask check over the covering subtrees
fails). -/
theorem prove_exclusion_sound (maxOrd eid : Nat) (es : List DeltaEntry)
    (st : AggState) (fo fromSeq toSeq i : Nat) (e : DeltaEntry)
    (hing : ingestList (freshAgg eid) es = .ok st)
    (hi : es[i]? = some e)
    (hfrom : fromSeq ≤ e.sequence) (hto : e.sequence ≤ toSeq)
    (hbit : e.presence_bitmask.testBit fo = true) :
    verify (prove_exclusion maxOrd (sealEpoch maxOrd st).2 fo fromSeq toSeq)
      (sealEpoch maxOrd st).1.root_digest = false := by
  obtain ⟨hent, _, _⟩ := ingestList_ok es (freshAgg eid) st hing
  simp only [freshAgg, List.nil_append] at hent
  have hilen : i < es.length := by
    by_contra hx
    rw [List.getElem?_eq_none (by omega)] at hi
    exact absurd hi (by simp)
  have hent2 : (sealEpoch maxOrd st).2.entries = es := by
    rw [sealEpoch]
    simpa using hent
  have hmc : maskClear fo
      (coverTree maxOrd (inRangePred es fromSeq toSeq)
        (treeDepth (es.map (fun g => g.presence_bitmask)).length) 0
        (padLeaves (es.map (fun g => g.presence_bitmask)))) = false := by
    have hlen : (padLeaves (es.map (fun g => g.presence_bitmask))).length =
        2 ^ treeDepth (es.map (fun g => g.presence_bitmask)).length :=
      padLeaves_length (es.map (fun g => g.presence_bitmask))
    have hcap : es.length ≤ 2 ^ treeDepth (es.map (fun g => g.presence_bitmask)).length := by
      have := Nat.le_pow_clog (b := 2) (by omega) (es.map (fun g => g.presence_bitmask)).length
      simpa [treeDepth] using this
    have hli : (padLeaves (es.map (fun g => g.presence_bitmask)))[i]? =
        some (some e.presence_bitmask) := by
      rw [padLeaves, List.getElem?_append]
      rw [if_pos (by simpa using hilen)]
      rw [List.getElem?_map, List.getElem?_map, hi]
      rfl
    have hinR : inRangePred es fromSeq toSeq (0 + i) = true := by
      rw [Nat.zero_add, inRangePred, hi]
      simp [hfrom, hto]
    exact maskClear_coverTree_false maxOrd fo (inRangePred es fromSeq toSeq)
      (treeDepth (es.map (fun g => g.presence_bitmask)).length) 0
      (padLeaves (es.map (fun g => g.presence_bitmask))) i e.presence_bitmask
      hlen (by omega) hli hbit hinR
  simp only [prove_exclusion, verify, hent2]
  rw [hmc, Bool.and_false]

/-- Witness for C2: a two-entry epoch where the second entry mutates
field 0 inside the queried range; the exclusion proof fails to verify. -/
theorem prove_exclusion_sound_witness :
    verify (prove_exclusion 2 (sealEpoch 2
        ((ingestList (freshAgg 0) [⟨7, 1, 2, [.intDelta 1], 0⟩,
          ⟨7, 2, 1, [.intDelta 1], 0⟩]).toOption.getD (freshAgg 0))).2 0 1 2)
      (sealEpoch 2 ((ingestList (freshAgg 0) [⟨7, 1, 2, [.intDelta 1], 0⟩,
          ⟨7, 2, 1, [.intDelta 1], 0⟩]).toOption.getD (freshAgg 0))).1.root_digest
      = false :=
  prove_exclusion_sound 2 0
    [⟨7, 1, 2, [.intDelta 1], 0⟩, ⟨7, 2, 1, [.intDelta 1], 0⟩] _ 0 1 2 1
    ⟨7, 2, 1, [.intDelta 1], 0⟩ (by rfl) (by rfl) (by decide) (by decide) (by decide)

/-! ## Epoch manager and reconstructor -/

/-- Modelled from the spec: an Epoch with monotonic id, the full
snapshot record active at epoch start, the start sequence, and the
DeltaEntries of the epoch (implementation missing from the source
tree). -/
structure Epoch where
  epoch_id : Nat
  snapshot : Record
  start_sequence : Nat
  entries : List DeltaEntry
deriving DecidableEq

/-- Modelled from the spec: reconstruction error taxonomy. -/
inductive ReconError where
  | snapshotUnavailable
  | sequenceGap
deriving DecidableEq

/-- The latest epoch whose start_sequence is at most the target. -/
def chooseEpoch : List Epoch → Nat → Option Epoch
  | [], _ => none
  | ep :: rest, target =>
    match chooseEpoch rest target with
    | some e => some e
    | none => if ep.start_sequence ≤ target then some ep else none

/-- Modelled from the spec: apply deltas in strictly increasing sequence
order from the replay base until the target sequence is reached, failing
with SequenceGap when an expected sequence number is missing. -/
def replay (r : Record) (next target : Nat) : List DeltaEntry → Except ReconError Record
  | [] => .error .sequenceGap
  | e :: rest =>
    if e.sequence ≠ next then .error .sequenceGap
    else if e.sequence = target then .ok (applyEntry r e)
    else replay (applyEntry r e) (next + 1) target rest

/-- Modelled from the spec: reconstruct(record_id, target_sequence)
locates the covering epoch (SnapshotUnavailable when none is retained)
and replays that record_id deltas from its snapshot. -/
def reconstruct (epochs : List Epoch) (rid target : Nat) : Except ReconError Record :=
  match chooseEpoch epochs target with
  | none => .error .snapshotUnavailable
  | some ep =>
    replay ep.snapshot ep.start_sequence target
      (ep.entries.filter (fun e => e.record_id == rid))

/-- Replay every delta of a list, yielding the final state and the next
expected sequence, or none on a sequence mismatch. -/
def replayAll (r : Record) (next : Nat) : List DeltaEntry → Option (Record × Nat)
  | [] => some (r, next)
  | e :: rest =>
    if e.sequence = next then replayAll (applyEntry r e) (next + 1) rest
    else none

/-- The all-zero record of a schema. -/
def zeroRecord (schema : List FieldSpec) : Record :=
  schema.map (fun f => (f.ordinal, zeroValue f.kind))

/-- Modelled from the spec: epoch manager state: sealed epochs so far,
the open epoch, the running snapshot maintained by applying every
DeltaEntry as it is encoded, and the next sequence number. -/
structure ManagerState where
  sealedEpochs : List Epoch
  cur : Epoch
  running : Record
  nextSeq : Nat
deriving DecidableEq

/-- Fresh manager state: epoch zero starts from the zero record. -/
def initManager (schema : List FieldSpec) : ManagerState :=
  ⟨[], ⟨0, zeroRecord schema, 0, []⟩, zeroRecord schema, 0⟩

/-- Modelled from the spec: encode one record (the first of a record_id
against no previous record, later ones against the running snapshot),
append the delta to the open epoch, and close the epoch once it holds
maxCount deltas (the count-based trigger). -/
def stepBuild (schema : List FieldSpec) (maxCount rid : Nat) (st : ManagerState)
    (r : Record) : Except EncodeError ManagerState :=
  match encode schema (if st.nextSeq == 0 then none else some st.running) r rid
      st.nextSeq st.cur.epoch_id with
  | .error er => .error er
  | .ok d =>
    if maxCount ≤ (st.cur.entries ++ [d]).length then
      .ok ⟨st.sealedEpochs ++ [{ st.cur with entries := st.cur.entries ++ [d] }],
        ⟨st.cur.epoch_id + 1, applyEntry st.running d, st.nextSeq + 1, []⟩,
        applyEntry st.running d, st.nextSeq + 1⟩
    else
      .ok ⟨st.sealedEpochs, { st.cur with entries := st.cur.entries ++ [d] },
        applyEntry st.running d, st.nextSeq + 1⟩

/-- Run the encode pipeline over a list of records. -/
def buildGo (schema : List FieldSpec) (maxCount rid : Nat) (st : ManagerState) :
    List Record → Except EncodeError (List Epoch)
  | [] => .ok (st.sealedEpochs ++ [st.cur])
  | r :: rest =>
    match stepBuild schema maxCount rid st r with
    | .error er => .error er
    | .ok st2 => buildGo schema maxCount rid st2 rest

/-- Modelled from the spec: encode records r0.. in order at sequences
0.., sealing epochs at the count trigger, returning every epoch. -/
def buildEpochs (schema : List FieldSpec) (maxCount rid : Nat)
    (records : List Record) : Except EncodeError (List Epoch) :=
  buildGo schema maxCount rid (initManager schema) records

/-- The record a delta is computed against: the previous record, or the
zero record of the schema for the first record of a record_id. -/
def encodeBase (schema : List FieldSpec) (previous : Option Record) : Record :=
  match previous with
  | some p => p
  | none => zeroRecord schema


/-! ## Round-trip core lemmas -/

/-- A field encoding to nothing has equal previous and current values. -/
theorem encodeField_none_eq (f : FieldSpec) (pv cv : Value)
    (h : encodeField f pv cv = .ok none) : cv = pv := by
  cases hf : f.kind <;> cases pv <;> cases cv <;>
    simp_all [encodeField] <;> split_ifs at h <;> simp_all [sub_eq_zero]

/-- Applying the packed delta of a field recovers the current value. -/
theorem encodeField_some_apply (f : FieldSpec) (pv cv : Value) (d : PackedVal)
    (h : encodeField f pv cv = .ok (some d)) : applyOne pv d = cv := by
  cases hf : f.kind <;> cases pv <;> cases cv <;>
    simp only [encodeField, hf] at h <;>
    try exact absurd h (by simp)
  case kint.vint.vint a b =>
    by_cases h0 : b - a = 0
    · rw [if_pos h0] at h
      exact absurd h (by simp)
    · rw [if_neg h0] at h
      by_cases h1 : zigzag (b - a) < 2 ^ f.bit_width
      · rw [if_pos h1] at h
        simp only [Except.ok.injEq, Option.some.injEq] at h
        rw [← h]
        simp only [applyOne, Value.vint.injEq]
        omega
      · rw [if_neg h1] at h
        exact absurd h (by simp)
  case kuint.vint.vint a b =>
    by_cases h0 : b - a = 0
    · rw [if_pos h0] at h
      exact absurd h (by simp)
    · rw [if_neg h0] at h
      by_cases h1 : zigzag (b - a) < 2 ^ f.bit_width
      · rw [if_pos h1] at h
        simp only [Except.ok.injEq, Option.some.injEq] at h
        rw [← h]
        simp only [applyOne, Value.vint.injEq]
        omega
      · rw [if_neg h1] at h
        exact absurd h (by simp)
  case kbytes.vbytes.vbytes a b =>
    by_cases h0 : a = b
    · rw [if_pos h0] at h
      exact absurd h (by simp)
    · rw [if_neg h0] at h
      simp only [Except.ok.injEq, Option.some.injEq] at h
      rw [← h]
      rfl
  case kbool.vbool.vbool a b =>
    by_cases h0 : a = b
    · rw [if_pos h0] at h
      exact absurd h (by simp)
    · rw [if_neg h0] at h
      simp only [Except.ok.injEq, Option.some.injEq] at h
      rw [← h]
      rfl

/-- applyFields only looks at the mask bits of the ordinals present in
the record. -/
theorem applyFields_congr :
    ∀ (r : Record) (m1 m2 : Nat) (ds : List PackedVal),
      (∀ p ∈ r, m1.testBit p.1 = m2.testBit p.1) →
      applyFields r m1 ds = applyFields r m2 ds := by
  intro r
  induction r with
  | nil => intro m1 m2 ds h; rfl
  | cons p r2 ihr =>
    intro m1 m2 ds h
    obtain ⟨o, v⟩ := p
    have ho : m1.testBit o = m2.testBit o := by
      simpa using h (o, v) (List.mem_cons_self _ _)
    have htail := fun q hq => h q (List.mem_cons_of_mem _ hq)
    simp only [applyFields, ho]
    cases hb : m2.testBit o with
    | false =>
      rw [if_neg (show ¬(false = true) by decide),
        if_neg (show ¬(false = true) by decide), ihr m1 m2 ds htail]
    | true =>
      rw [if_pos rfl, if_pos rfl]
      cases ds with
      | nil =>
        show (o, v) :: applyFields r2 m1 [] = (o, v) :: applyFields r2 m2 []
        rw [ihr m1 m2 [] htail]
      | cons d ds2 =>
        show (o, applyOne v d) :: applyFields r2 m1 ds2 =
          (o, applyOne v d) :: applyFields r2 m2 ds2
        rw [ihr m1 m2 ds2 htail]

/-- A well-formed record lists exactly the schema ordinals in order. -/
theorem wf_ordinals :
    ∀ (fs : List FieldSpec) (r : Record), wfRecord fs r = true →
      ordinalsOf r = fs.map (fun f => f.ordinal) := by
  intro fs
  induction fs with
  | nil =>
    intro r hwf
    cases r with
    | nil => rfl
    | cons p r2 => simp [wfRecord] at hwf
  | cons f fs ihf =>
    intro r hwf
    cases r with
    | nil => simp [wfRecord] at hwf
    | cons p r2 =>
      obtain ⟨o, v⟩ := p
      simp only [wfRecord, Bool.and_eq_true, beq_iff_eq] at hwf
      obtain ⟨⟨ho, hk⟩, hwf2⟩ := hwf
      simp only [ordinalsOf, List.map_cons]
      rw [ho, ← ihf r2 hwf2]
      rfl

/-- The zero record of a schema is well formed. -/
theorem wf_zeroRecord (schema : List FieldSpec) :
    wfRecord schema (zeroRecord schema) = true := by
  induction schema with
  | nil => rfl
  | cons f fs ihf =>
    have hk : kindMatches f.kind (zeroValue f.kind) = true := by
      cases f.kind <;> rfl
    show (f.ordinal == f.ordinal && kindMatches f.kind (zeroValue f.kind) &&
      wfRecord fs (zeroRecord fs)) = true
    simp [hk, ihf]

/-- Looking a schema ordinal up in the zero record finds the zero value. -/
theorem zeroRecord_lookup :
    ∀ (fs : List FieldSpec), (fs.map (fun f => f.ordinal)).Nodup →
      ∀ f ∈ fs, recFind (zeroRecord fs) f.ordinal = some (zeroValue f.kind) := by
  intro fs
  induction fs with
  | nil =>
    intro hnd f hf
    exact absurd hf (by simp)
  | cons f0 fs ihf =>
    intro hnd f hf
    simp only [List.map_cons, List.nodup_cons] at hnd
    rcases List.mem_cons.mp hf with hfe | hfe
    · subst hfe
      show ((((f.ordinal, zeroValue f.kind) :: zeroRecord fs).find?
        (fun p => p.1 == f.ordinal)).map (fun p => p.2)) = some (zeroValue f.kind)
      rw [List.find?_cons_of_pos _ (by simp)]
      rfl
    · have hne : f0.ordinal ≠ f.ordinal := by
        intro hx
        exact hnd.1 (hx ▸ List.mem_map_of_mem (fun g => g.ordinal) hfe)
      show ((((f0.ordinal, zeroValue f0.kind) :: zeroRecord fs).find?
        (fun p => p.1 == f.ordinal)).map (fun p => p.2)) = some (zeroValue f.kind)
      rw [List.find?_cons_of_neg _ (by simp [hne])]
      exact ihf hnd.2 f hfe

/-- Core round-trip: applying the encoded mask and deltas to the base
suffix yields the current suffix, for aligned well-formed suffixes whose
values agree with the encoder lookups. -/
theorem encodeFields_applyFields (previous : Option Record) (current : Record) :
    ∀ (fs : List FieldSpec) (bsuf csuf : Record) (mask : Nat) (ds : List PackedVal),
      (fs.map (fun f => f.ordinal)).Nodup →
      wfRecord fs bsuf = true → wfRecord fs csuf = true →
      (∀ f ∈ fs, prevVal previous f = (recFind bsuf f.ordinal).getD (zeroValue f.kind)) →
      (∀ f ∈ fs, currVal current f = (recFind csuf f.ordinal).getD (zeroValue f.kind)) →
      encodeFields previous current fs = .ok (mask, ds) →
      applyFields bsuf mask ds = csuf := by
  intro fs
  induction fs with
  | nil =>
    intro bsuf csuf mask ds hnd hwb hwc hp hc h
    cases bsuf with
    | cons p b2 => simp [wfRecord] at hwb
    | nil =>
      cases csuf with
      | cons q c2 => simp [wfRecord] at hwc
      | nil => rfl
  | cons f fs ihf =>
    intro bsuf csuf mask ds hnd hwb hwc hp hc h
    cases bsuf with
    | nil => simp [wfRecord] at hwb
    | cons pb b2 =>
      cases csuf with
      | nil => simp [wfRecord] at hwc
      | cons pc c2 =>
        obtain ⟨ob, vb⟩ := pb
        obtain ⟨oc, vc⟩ := pc
        simp only [wfRecord, Bool.and_eq_true, beq_iff_eq] at hwb hwc
        obtain ⟨⟨hob, hkb⟩, hwb2⟩ := hwb
        obtain ⟨⟨hoc, hkc⟩, hwc2⟩ := hwc
        simp only [List.map_cons, List.nodup_cons] at hnd
        have hfind_b : recFind ((ob, vb) :: b2) f.ordinal = some vb := by
          rw [recFind, List.find?_cons_of_pos _ (by simp [hob])]
          rfl
        have hfind_c : recFind ((oc, vc) :: c2) f.ordinal = some vc := by
          rw [recFind, List.find?_cons_of_pos _ (by simp [hoc])]
          rfl
        have hpv : prevVal previous f = vb := by
          rw [hp f (List.mem_cons_self f fs), hfind_b]
          rfl
        have hcv : currVal current f = vc := by
          rw [hc f (List.mem_cons_self f fs), hfind_c]
          rfl
        have htail_p : ∀ g ∈ fs, prevVal previous g =
            (recFind b2 g.ordinal).getD (zeroValue g.kind) := by
          intro g hg
          have hne : ob ≠ g.ordinal := by
            rw [hob]
            intro hx
            exact hnd.1 (hx ▸ List.mem_map_of_mem (fun x => x.ordinal) hg)
          rw [hp g (List.mem_cons_of_mem f hg), recFind,
            List.find?_cons_of_neg _ (by simp [hne])]
          rfl
        have htail_c : ∀ g ∈ fs, currVal current g =
            (recFind c2 g.ordinal).getD (zeroValue g.kind) := by
          intro g hg
          have hne : oc ≠ g.ordinal := by
            rw [hoc]
            intro hx
            exact hnd.1 (hx ▸ List.mem_map_of_mem (fun x => x.ordinal) hg)
          rw [hc g (List.mem_cons_of_mem f hg), recFind,
            List.find?_cons_of_neg _ (by simp [hne])]
          rfl
        simp only [encodeFields] at h
        cases he : encodeField f (prevVal previous f) (currVal current f) with
        | error er =>
          rw [he] at h
          simp at h
        | ok od =>
          rw [he] at h
          cases od with
          | none =>
            have hvcb : vc = vb := by
              rw [hpv, hcv] at he
              exact encodeField_none_eq f vb vc he
            have hmaskbit : mask.testBit ob = false := by
              by_contra hx
              rw [Bool.not_eq_false] at hx
              have := encodeFields_mask_bits previous current fs mask ds h ob hx
              rw [hob] at this
              exact hnd.1 (by simpa using this)
            have htl := ihf b2 c2 mask ds hnd.2 hwb2 hwc2 htail_p htail_c h
            simp only [applyFields, hmaskbit]
            rw [if_neg (show ¬(false = true) by decide), htl, hvcb, hob, hoc]
          | some d =>
            cases hr : encodeFields previous current fs with
            | error er =>
              rw [hr] at h
              simp at h
            | ok q =>
              obtain ⟨mask2, ds2⟩ := q
              rw [hr] at h
              simp only [Except.ok.injEq, Prod.mk.injEq] at h
              obtain ⟨h1, h2⟩ := h
              have happ : applyOne vb d = vc := by
                rw [hpv, hcv] at he
                exact encodeField_some_apply f vb vc d he
              have hmaskbit : mask.testBit ob = true := by
                rw [← h1, hob, Nat.testBit_lor, Nat.testBit_two_pow_self]
                simp
              have hcongr : applyFields b2 mask ds2 = applyFields b2 mask2 ds2 := by
                apply applyFields_congr
                intro q hq
                have hqord : q.1 ∈ fs.map (fun g => g.ordinal) := by
                  have hw := wf_ordinals fs b2 hwb2
                  rw [← hw]
                  exact List.mem_map_of_mem (fun x => x.1) hq
                have hne : f.ordinal ≠ q.1 := by
                  intro hx
                  exact hnd.1 (hx ▸ hqord)
                rw [← h1, Nat.testBit_lor, Nat.testBit_two_pow_of_ne hne]
                simp
              have htl := ihf b2 c2 mask2 ds2 hnd.2 hwb2 hwc2 htail_p htail_c hr
              rw [← h2]
              simp only [applyFields, hmaskbit, if_true]
              show (ob, applyOne vb d) :: applyFields b2 mask ds2 = (oc, vc) :: c2
              rw [happ, hcongr, htl, hob, hoc]

/-- A successful encode stamps the given record id, sequence and epoch. -/
theorem encode_ok_fields (schema : List FieldSpec) (previous : Option Record)
    (current : Record) (rid seq eid : Nat) (e : DeltaEntry)
    (h : encode schema previous current rid seq eid = .ok e) :
    e.record_id = rid ∧ e.sequence = seq ∧ e.epoch_id = eid := by
  cases previous with
  | none =>
    simp only [encode] at h
    cases hr : encodeFields none current schema with
    | error er =>
      rw [hr] at h
      simp at h
    | ok q =>
      obtain ⟨mask, ds⟩ := q
      rw [hr] at h
      simp only [Except.ok.injEq] at h
      rw [← h]
      exact ⟨rfl, rfl, rfl⟩
  | some p =>
    simp only [encode] at h
    by_cases hs : supersetCheck p current
    · rw [if_pos hs] at h
      cases hr : encodeFields (some p) current schema with
      | error er =>
        rw [hr] at h
        simp at h
      | ok q =>
        obtain ⟨mask, ds⟩ := q
        rw [hr] at h
        simp only [Except.ok.injEq] at h
        rw [← h]
        exact ⟨rfl, rfl, rfl⟩
    · rw [if_neg hs] at h
      simp at h

/-- Applying a successfully encoded delta to its base record yields the
current record exactly. -/
theorem encode_roundtrip (schema : List FieldSpec) (previous : Option Record)
    (current : Record) (rid seq eid : Nat) (e : DeltaEntry)
    (hnd : (schema.map (fun f => f.ordinal)).Nodup)
    (hwb : wfRecord schema (encodeBase schema previous) = true)
    (hwc : wfRecord schema current = true)
    (h : encode schema previous current rid seq eid = .ok e) :
    applyEntry (encodeBase schema previous) e = current := by
  cases previous with
  | none =>
    simp only [encode] at h
    cases hr : encodeFields none current schema with
    | error er =>
      rw [hr] at h
      simp at h
    | ok q =>
      obtain ⟨mask, ds⟩ := q
      rw [hr] at h
      simp only [Except.ok.injEq] at h
      rw [← h]
      show applyFields (encodeBase schema none) mask ds = current
      apply encodeFields_applyFields none current schema (encodeBase schema none)
        current mask ds hnd hwb hwc ?_ ?_ hr
      · intro f hf
        show zeroValue f.kind = (recFind (zeroRecord schema) f.ordinal).getD (zeroValue f.kind)
        rw [zeroRecord_lookup schema hnd f hf]
        rfl
      · intro f hf
        rfl
  | some p =>
    simp only [encode] at h
    by_cases hs : supersetCheck p current
    · rw [if_pos hs] at h
      cases hr : encodeFields (some p) current schema with
      | error er =>
        rw [hr] at h
        simp at h
      | ok q =>
        obtain ⟨mask, ds⟩ := q
        rw [hr] at h
        simp only [Except.ok.injEq] at h
        rw [← h]
        show applyFields p mask ds = current
        apply encodeFields_applyFields (some p) current schema p current mask ds
          hnd hwb hwc ?_ ?_ hr
        · intro f hf
          rfl
        · intro f hf
          rfl
    · rw [if_neg hs] at h
      simp at h

/-! ## Replay lemmas -/

/-- replayAll counts one sequence number per entry. -/
theorem replayAll_next :
    ∀ (es : List DeltaEntry) (r : Record) (next : Nat) (r2 : Record) (n2 : Nat),
      replayAll r next es = some (r2, n2) → n2 = next + es.length := by
  intro es
  induction es with
  | nil =>
    intro r next r2 n2 h
    simp only [replayAll, Option.some.injEq, Prod.mk.injEq] at h
    obtain ⟨h1, h2⟩ := h
    rw [List.length_nil]
    omega
  | cons e rest ihe =>
    intro r next r2 n2 h
    simp only [replayAll] at h
    by_cases hs : e.sequence = next
    · rw [if_pos hs] at h
      have := ihe (applyEntry r e) (next + 1) r2 n2 h
      simp only [List.length_cons]
      omega
    · rw [if_neg hs] at h
      exact absurd h (by simp)

/-- replayAll over an appended list runs the first part first. -/
theorem replayAll_append :
    ∀ (es more : List DeltaEntry) (r : Record) (next : Nat) (r2 : Record) (n2 : Nat),
      replayAll r next es = some (r2, n2) →
      replayAll r next (es ++ more) = replayAll r2 n2 more := by
  intro es
  induction es with
  | nil =>
    intro more r next r2 n2 h
    simp only [replayAll, Option.some.injEq, Prod.mk.injEq] at h
    rw [List.nil_append, h.1, h.2]
  | cons e rest ihe =>
    intro more r next r2 n2 h
    simp only [replayAll] at h
    by_cases hs : e.sequence = next
    · rw [if_pos hs] at h
      show replayAll r next (e :: (rest ++ more)) = replayAll r2 n2 more
      simp only [replayAll, if_pos hs]
      exact ihe more (applyEntry r e) (next + 1) r2 n2 h
    · rw [if_neg hs] at h
      exact absurd h (by simp)

/-- Replaying to a target at or past the clean prefix continues on the
suffix from the prefix final state. -/
theorem replay_run_append :
    ∀ (es more : List DeltaEntry) (r : Record) (next : Nat) (r2 : Record)
      (n2 target : Nat),
      replayAll r next es = some (r2, n2) → n2 ≤ target →
      replay r next target (es ++ more) = replay r2 n2 target more := by
  intro es
  induction es with
  | nil =>
    intro more r next r2 n2 target h htar
    simp only [replayAll, Option.some.injEq, Prod.mk.injEq] at h
    rw [List.nil_append, h.1, h.2]
  | cons e rest ihe =>
    intro more r next r2 n2 target h htar
    simp only [replayAll] at h
    by_cases hs : e.sequence = next
    · rw [if_pos hs] at h
      have hn2 := replayAll_next rest (applyEntry r e) (next + 1) r2 n2 h
      show replay r next target (e :: (rest ++ more)) = replay r2 n2 target more
      simp only [replay, hs]
      rw [if_neg (by omega), if_neg (by omega)]
      exact ihe more (applyEntry r e) (next + 1) r2 n2 target h htar
    · rw [if_neg hs] at h
      exact absurd h (by simp)

/-- Replaying to a target strictly inside the clean prefix ignores any
suffix. -/
theorem replay_prefix_stable :
    ∀ (es more : List DeltaEntry) (r : Record) (next : Nat) (r2 : Record)
      (n2 target : Nat),
      replayAll r next es = some (r2, n2) → next ≤ target → target < n2 →
      replay r next target (es ++ more) = replay r next target es := by
  intro es
  induction es with
  | nil =>
    intro more r next r2 n2 target h h1 h2
    simp only [replayAll, Option.some.injEq, Prod.mk.injEq] at h
    obtain ⟨hr2, hn⟩ := h
    exfalso
    omega
  | cons e rest ihe =>
    intro more r next r2 n2 target h h1 h2
    simp only [replayAll] at h
    by_cases hs : e.sequence = next
    · rw [if_pos hs] at h
      show replay r next target (e :: (rest ++ more)) = replay r next target (e :: rest)
      simp only [replay, hs]
      by_cases ht : next = target
      · rw [if_neg (by omega), if_pos (by omega), if_neg (by omega), if_pos (by omega)]
      · rw [if_neg (by omega), if_neg (by omega), if_neg (by omega), if_neg (by omega)]
        exact ihe more (applyEntry r e) (next + 1) r2 n2 target h (by omega) h2
    · rw [if_neg hs] at h
      exact absurd h (by simp)

/-- Choosing an epoch in a list extended by one epoch. -/
theorem chooseEpoch_append (t : Nat) (ep : Epoch) :
    ∀ l : List Epoch, chooseEpoch (l ++ [ep]) t =
      if ep.start_sequence ≤ t then some ep else chooseEpoch l t := by
  intro l
  induction l with
  | nil => rfl
  | cons x l ihl =>
    show (match chooseEpoch (l ++ [ep]) t with
      | some e => some e
      | none => if x.start_sequence ≤ t then some x else none) = _
    rw [ihl]
    by_cases hs : ep.start_sequence ≤ t
    · rw [if_pos hs, if_pos hs]
    · rw [if_neg hs, if_neg hs]
      rfl

/-- reconstruct only depends on the chosen epoch. -/
theorem reconstruct_congr (l1 l2 : List Epoch) (rid t : Nat)
    (h : chooseEpoch l1 t = chooseEpoch l2 t) :
    reconstruct l1 rid t = reconstruct l2 rid t := by
  rw [reconstruct, reconstruct, h]

/-- reconstruct through a known chosen epoch. -/
theorem reconstruct_eq_replay (l : List Epoch) (rid t : Nat) (ep : Epoch)
    (h : chooseEpoch l t = some ep) :
    reconstruct l rid t = replay ep.snapshot ep.start_sequence t
      (ep.entries.filter (fun e => e.record_id == rid)) := by
  rw [reconstruct, h]

/-- Pipeline invariant induction: after processing a prefix, every
already-seen record reconstructs exactly, and this is preserved by each
step of the epoch manager. -/
theorem buildGo_reconstruct (schema : List FieldSpec) (maxCount rid : Nat)
    (hnd : (schema.map (fun f => f.ordinal)).Nodup) (records : List Record)
    (hwf : ∀ r ∈ records, wfRecord schema r = true) :
    ∀ (rest done : List Record) (st : ManagerState) (epochs : List Epoch),
      records = done ++ rest →
      st.nextSeq = done.length →
      wfRecord schema st.running = true →
      (done.length = 0 → st.running = zeroRecord schema) →
      replayAll st.cur.snapshot st.cur.start_sequence st.cur.entries =
        some (st.running, done.length) →
      (∀ e ∈ st.cur.entries, e.record_id = rid) →
      (∀ t2, (ht2 : t2 < records.length) → t2 < done.length →
        reconstruct (st.sealedEpochs ++ [st.cur]) rid t2 = .ok records[t2]) →
      buildGo schema maxCount rid st rest = .ok epochs →
      ∀ t, (ht : t < records.length) → reconstruct epochs rid t = .ok records[t] := by
  intro rest
  induction rest with
  | nil =>
    intro done st epochs hsplit h2 h3 h4 h6 h7 h8 h9 t ht
    simp only [buildGo, Except.ok.injEq] at h9
    have hlen : records.length = done.length := by
      rw [hsplit]
      simp
    rw [← h9]
    exact h8 t ht (by omega)
  | cons r rest2 ihr =>
    intro done st epochs hsplit h2 h3 h4 h6 h7 h8 h9 t ht
    simp only [buildGo] at h9
    cases hstep : stepBuild schema maxCount rid st r with
    | error er =>
      rw [hstep] at h9
      exact absurd h9 (by simp)
    | ok st2 =>
      rw [hstep] at h9
      simp only [stepBuild] at hstep
      cases henc : encode schema (if st.nextSeq == 0 then none else some st.running) r
          rid st.nextSeq st.cur.epoch_id with
      | error er =>
        rw [henc] at hstep
        exact absurd hstep (by simp)
      | ok d =>
        simp only [henc] at hstep
        obtain ⟨hdrid, hdseq, hdeid⟩ :=
          encode_ok_fields schema _ r rid st.nextSeq st.cur.epoch_id d henc
        have hrmem : r ∈ records := by
          rw [hsplit]
          exact List.mem_append_right _ (List.mem_cons_self _ _)
        have hwfr : wfRecord schema r = true := hwf r hrmem
        have hbase : encodeBase schema
            (if st.nextSeq == 0 then none else some st.running) = st.running := by
          by_cases hz : st.nextSeq = 0
          · have hzb : (st.nextSeq == 0) = true := by simp [hz]
            rw [hzb]
            show zeroRecord schema = st.running
            exact (h4 (by omega)).symm
          · have hzb : (st.nextSeq == 0) = false := by simp [hz]
            rw [hzb]
            rfl
        have hwfb : wfRecord schema (encodeBase schema
            (if st.nextSeq == 0 then none else some st.running)) = true := by
          rw [hbase]
          exact h3
        have hround : applyEntry st.running d = r := by
          have hh := encode_roundtrip schema _ r rid st.nextSeq st.cur.epoch_id d
            hnd hwfb hwfr henc
          rw [hbase] at hh
          exact hh
        have hstart := replayAll_next st.cur.entries st.cur.snapshot
          st.cur.start_sequence st.running done.length h6
        have hfid : st.cur.entries.filter (fun e => e.record_id == rid) =
            st.cur.entries := by
          rw [List.filter_eq_self]
          intro e he
          rw [h7 e he]
          simp
        have hget : ∀ htj : done.length < records.length, records[done.length] = r := by
          intro htj
          have hq : records[done.length]? = some r := by
            rw [hsplit, List.getElem?_append, if_neg (by omega)]
            simp
          have hq2 := List.getElem?_eq_getElem htj
          rw [hq] at hq2
          injection hq2 with hq3
          exact hq3.symm
        have hrecon2 : ∀ t2, (ht2 : t2 < records.length) → t2 < done.length + 1 →
            reconstruct (st.sealedEpochs ++
              [{ st.cur with entries := st.cur.entries ++ [d] }]) rid t2 =
              .ok records[t2] := by
          intro t2 ht2 hlt2
          have hfid2 : ({ st.cur with entries := st.cur.entries ++ [d] } :
              Epoch).entries.filter (fun e => e.record_id == rid) =
              st.cur.entries ++ [d] := by
            show (st.cur.entries ++ [d]).filter (fun e => e.record_id == rid) = _
            rw [List.filter_append, hfid]
            have hone : List.filter (fun e => e.record_id == rid) [d] = [d] := by
              simp [List.filter, hdrid]
            rw [hone]
          by_cases hcs : st.cur.start_sequence ≤ t2
          · have hcs2 : ({ st.cur with entries := st.cur.entries ++ [d] } :
                Epoch).start_sequence ≤ t2 := hcs
            have hch2 : chooseEpoch (st.sealedEpochs ++
                [{ st.cur with entries := st.cur.entries ++ [d] }]) t2 =
                some { st.cur with entries := st.cur.entries ++ [d] } := by
              rw [chooseEpoch_append, if_pos hcs2]
            rw [reconstruct_eq_replay _ _ _ _ hch2, hfid2]
            show replay st.cur.snapshot st.cur.start_sequence t2
              (st.cur.entries ++ [d]) = .ok records[t2]
            by_cases hti : t2 = done.length
            · rw [replay_run_append st.cur.entries [d] st.cur.snapshot
                st.cur.start_sequence st.running done.length t2 h6 (by omega)]
              simp only [replay]
              rw [if_neg (by omega), if_pos (by omega), hround]
              subst hti
              rw [hget (by omega)]
            · have hlt3 : t2 < done.length := by omega
              rw [replay_prefix_stable st.cur.entries [d] st.cur.snapshot
                st.cur.start_sequence st.running done.length t2 h6 hcs hlt3]
              have hch1 : chooseEpoch (st.sealedEpochs ++ [st.cur]) t2 =
                  some st.cur := by
                rw [chooseEpoch_append, if_pos hcs]
              have h8t := h8 t2 ht2 hlt3
              rw [reconstruct_eq_replay _ _ _ _ hch1, hfid] at h8t
              exact h8t
          · have hlt3 : t2 < done.length := by omega
            have hcs2 : ¬ ({ st.cur with entries := st.cur.entries ++ [d] } :
                Epoch).start_sequence ≤ t2 := hcs
            have hch1 : chooseEpoch (st.sealedEpochs ++ [st.cur]) t2 =
                chooseEpoch st.sealedEpochs t2 := by
              rw [chooseEpoch_append, if_neg hcs]
            have hch2 : chooseEpoch (st.sealedEpochs ++
                [{ st.cur with entries := st.cur.entries ++ [d] }]) t2 =
                chooseEpoch st.sealedEpochs t2 := by
              rw [chooseEpoch_append, if_neg hcs2]
            have h8t := h8 t2 ht2 hlt3
            rw [reconstruct_congr (st.sealedEpochs ++ [st.cur])
              (st.sealedEpochs ++ [{ st.cur with entries := st.cur.entries ++ [d] }])
              rid t2 (hch1.trans hch2.symm)] at h8t
            exact h8t
        have hsplit2 : records = (done ++ [r]) ++ rest2 := by
          rw [List.append_assoc]
          exact hsplit
        have hreplay2 : replayAll st.cur.snapshot st.cur.start_sequence
            (st.cur.entries ++ [d]) = some (applyEntry st.running d, done.length + 1) := by
          rw [replayAll_append st.cur.entries [d] st.cur.snapshot
            st.cur.start_sequence st.running done.length h6]
          show (if d.sequence = done.length then
            replayAll (applyEntry st.running d) (done.length + 1) [] else none) = _
          rw [if_pos (by omega)]
          rfl
        by_cases hclose : maxCount ≤ (st.cur.entries ++ [d]).length
        · rw [if_pos hclose] at hstep
          injection hstep with hstep2
          subst hstep2
          refine ihr (done ++ [r]) _ epochs hsplit2 ?_ ?_ ?_ ?_ ?_ ?_ h9 t ht
          · show st.nextSeq + 1 = (done ++ [r]).length
            rw [List.length_append]
            simp
            omega
          · show wfRecord schema (applyEntry st.running d) = true
            rw [hround]
            exact hwfr
          · intro hx
            rw [List.length_append] at hx
            simp at hx
          · show replayAll (applyEntry st.running d) (st.nextSeq + 1) [] =
              some (applyEntry st.running d, (done ++ [r]).length)
            show some (applyEntry st.running d, st.nextSeq + 1) = _
            rw [List.length_append, h2]
            simp
          · intro e he
            exact absurd he (by simp)
          · intro t2 ht2 hlt
            rw [List.length_append] at hlt
            simp only [List.length_cons, List.length_nil] at hlt
            have hch : chooseEpoch ((st.sealedEpochs ++
                [{ st.cur with entries := st.cur.entries ++ [d] }]) ++
                [⟨st.cur.epoch_id + 1, applyEntry st.running d, st.nextSeq + 1, []⟩]) t2 =
                chooseEpoch (st.sealedEpochs ++
                  [{ st.cur with entries := st.cur.entries ++ [d] }]) t2 := by
              rw [chooseEpoch_append]
              rw [if_neg (by show ¬ (st.nextSeq + 1 ≤ t2); omega)]
            show reconstruct ((st.sealedEpochs ++
              [{ st.cur with entries := st.cur.entries ++ [d] }]) ++
              [⟨st.cur.epoch_id + 1, applyEntry st.running d, st.nextSeq + 1, []⟩])
              rid t2 = .ok records[t2]
            rw [reconstruct_congr _ _ rid t2 hch]
            exact hrecon2 t2 ht2 (by omega)
        · rw [if_neg hclose] at hstep
          injection hstep with hstep2
          subst hstep2
          refine ihr (done ++ [r]) _ epochs hsplit2 ?_ ?_ ?_ ?_ ?_ ?_ h9 t ht
          · show st.nextSeq + 1 = (done ++ [r]).length
            rw [List.length_append]
            simp
            omega
          · show wfRecord schema (applyEntry st.running d) = true
            rw [hround]
            exact hwfr
          · intro hx
            rw [List.length_append] at hx
            simp at hx
          · show replayAll st.cur.snapshot st.cur.start_sequence
              (st.cur.entries ++ [d]) = some (applyEntry st.running d, (done ++ [r]).length)
            rw [hreplay2, List.length_append]
            simp
          · intro e he
            rcases List.mem_append.mp he with he2 | he2
            · exact h7 e he2
            · have hed : e = d := by simpa using he2
              rw [hed]
              exact hdrid
          · intro t2 ht2 hlt
            rw [List.length_append] at hlt
            simp only [List.length_cons, List.length_nil] at hlt
            exact hrecon2 t2 ht2 (by omega)

/-- C1: round-trip losslessness. For a schema with distinct ordinals and
well-formed records r0..rn encoded in order via encode at sequences 0..n
(epochs sealed by the count trigger as the pipeline runs),
reconstruct(record_id, i) returns a record identical to r_i for every i. -/
theorem reconstruct_roundtrip (schema : List FieldSpec) (maxCount rid : Nat)
    (records : List Record) (epochs : List Epoch)
    (hnd : (schema.map (fun f => f.ordinal)).Nodup)
    (hwf : ∀ r ∈ records, wfRecord schema r = true)
    (hbuild : buildEpochs schema maxCount rid records = .ok epochs) :
    ∀ i, (hi : i < records.length) → reconstruct epochs rid i = .ok records[i] := by
  intro i hi
  refine buildGo_reconstruct schema maxCount rid hnd records hwf records []
    (initManager schema) epochs ?_ rfl ?_ ?_ ?_ ?_ ?_ hbuild i hi
  · rfl
  · exact wf_zeroRecord schema
  · intro hx
    rfl
  · rfl
  · intro e he
    exact absurd he (by simp [initManager])
  · intro t2 ht2 hlt
    exact absurd hlt (by simp)

/-- Witness for C1 at the specification scenario: records at sequences
0, 1, 2 with an epoch close after every second delta; each sequence
reconstructs to its original record. -/
theorem reconstruct_roundtrip_witness :
    reconstruct ((buildEpochs exSchema 2 5 [exR1, exR2, exR3]).toOption.getD []) 5 0 =
      .ok exR1 ∧
    reconstruct ((buildEpochs exSchema 2 5 [exR1, exR2, exR3]).toOption.getD []) 5 1 =
      .ok exR2 ∧
    reconstruct ((buildEpochs exSchema 2 5 [exR1, exR2, exR3]).toOption.getD []) 5 2 =
      .ok exR3 :=
  ⟨reconstruct_roundtrip exSchema 2 5 [exR1, exR2, exR3] _
      (by decide) (by decide) (by rfl) 0 (by decide),
   reconstruct_roundtrip exSchema 2 5 [exR1, exR2, exR3] _
      (by decide) (by decide) (by rfl) 1 (by decide),
   reconstruct_roundtrip exSchema 2 5 [exR1, exR2, exR3] _
      (by decide) (by decide) (by rfl) 2 (by decide)⟩
